import Mathlib

/-!
Verification of the generate-sidecar-tool pipeline: a shallow embedding of
the call-graph builder and policy generator, with theorems settling the
specification's claims about deduplication, mode dispatch, FQN decomposition,
error handling and output shape.

Go maps are modelled as association lists with overwrite-on-insert
(`upsertKV`) and first-match lookup (`lookupKV`); since `upsertKV` keeps keys
unique, this matches Go map semantics key-for-key.  Go `nil`-pointer panics
and out-of-range slice indexing are modelled as explicit `none` / `.error`
results.
-/

namespace SidecarTool

/-- Association-list lookup, modelling Go map read (`m[k]`). -/
def lookupKV {α : Type} : List (String × α) → String → Option α
  | [], _ => none
  | (k', v) :: rest, k => if k' = k then some v else lookupKV rest k

/-- Association-list insert-or-overwrite, modelling Go map write (`m[k] = v`). -/
def upsertKV {α : Type} : List (String × α) → String → α → List (String × α)
  | [], k, v => [(k, v)]
  | (k', v') :: rest, k, v =>
    if k' = k then (k, v) :: rest else (k', v') :: upsertKV rest k v

/-! ## Data model (api_model.go, part_000) -/

/-- A topology node (`TopologyResponse.Nodes` element). -/
structure TopNode where
  id : String
  aggregationKey : String
  deriving DecidableEq, Repr

/-- A topology call edge (`TopologyResponse.Calls` element). -/
structure TopCall where
  id : String
  source : String
  target : String
  deriving DecidableEq, Repr

/-- `TopologyResponse` from api_model.go. -/
structure TopologyResponse where
  nodes : List TopNode
  calls : List TopCall
  deriving DecidableEq, Repr

/-- A service metric entry; only the aggregation key is used. -/
structure Metric where
  aggregationKey : String
  deriving DecidableEq, Repr

/-- `ServiceDeployment` from api_model.go. -/
structure ServiceDeployment where
  fqn : String
  deriving DecidableEq, Repr

/-- `Service` from api_model.go (fields the core uses). -/
structure Service where
  fqn : String
  metrics : List Metric
  serviceDeployments : List ServiceDeployment
  deriving DecidableEq, Repr

/-- `TrafficGroup` from the client file (configMode and fqn are what the core reads). -/
structure TrafficGroup where
  configMode : String
  fqn : String
  deriving DecidableEq, Repr

/-- `typesv2.ObjectMeta`: the fields this program writes (all others stay at
their Go zero value and are omitted). -/
structure ObjectMeta where
  name : String := ""
  namespaceName : String := ""
  labels : List (String × String) := []
  annotations : List (String × String) := []
  organization : String := ""
  tenant : String := ""
  workspace : String := ""
  group : String := ""
  deriving DecidableEq, Repr

/-- `trafficv2.ReachabilitySettings`: host list plus the mode field (the mode
is only inspected for a debug warning, never acted upon). -/
structure ReachabilitySettings where
  mode : Nat := 0
  hosts : List String := []
  deriving DecidableEq, Repr

/-- `trafficv2.TrafficSetting`: an optional reachability block (a Go `nil`
pointer is `none`) and the FQN field. -/
structure TrafficSetting where
  reachability : Option ReachabilitySettings := none
  fqn : String := ""
  deriving DecidableEq, Repr

/-- `GetReachability().GetHosts()`: proto getters are nil-safe, an absent
reachability block reads as an empty host list. -/
def reachHosts (ts : TrafficSetting) : List String :=
  match ts.reachability with
  | none => []
  | some r => r.hosts

/-- The Istio `Sidecar` object as this program builds it: metadata name /
namespace / annotations plus the single egress listener's host list
(the Go code creates exactly one listener and always addresses `Egress[0]`). -/
structure Sidecar where
  name : String
  namespaceName : String
  annotations : List (String × String)
  egressHosts : List String
  deriving DecidableEq, Repr

/-! ## FQN decomposition (part_000: bridgedModeMeta, directModeAnnotations,
parseNamespace) -/

/-- `strings.Split(s, "/")` on the character list: split at every `'/'`. -/
def splitSlash : List Char → List (List Char)
  | [] => [[]]
  | c :: rest =>
    if c = '/' then [] :: splitSlash rest
    else (splitSlash rest).modifyHead (fun seg => c :: seg)

/-- `strings.Split(fqn, "/")`. -/
def splitFQN (s : String) : List String :=
  (splitSlash s.toList).map (fun cs => String.mk cs)

/-- One `switch` arm application of bridgedModeMeta's loop body. -/
def applyMetaKey (m : ObjectMeta) (k v : String) : ObjectMeta :=
  if k = "organizations" then { m with organization := v }
  else if k = "tenants" then { m with tenant := v }
  else if k = "workspaces" then { m with workspace := v }
  else if k = "trafficgroups" then { m with group := v }
  else m

/-- The keys recognized by the metadata / annotation walks. -/
def metaKeys : List String := ["organizations", "tenants", "workspaces", "trafficgroups"]

/-- The `for i := 0; i < len; i += 2` walk of bridgedModeMeta.  A trailing
singleton whose key is recognized makes Go read `fqnParts[i+1]` past the end
of the slice — an index-out-of-range panic, modelled as `none`. -/
def metaLoop : List String → ObjectMeta → Option ObjectMeta
  | [], m => some m
  | [k], m => if k ∈ metaKeys then none else some m
  | k :: v :: rest, m => metaLoop rest (applyMetaKey m k v)

/-- `bridgedModeMeta` (part_000:328): decompose a group FQN into structured
metadata.  `none` models the out-of-range panic on a malformed FQN. -/
def bridgedModeMeta (fqn : String) : Option ObjectMeta :=
  metaLoop (splitFQN fqn) {}

/-- One `switch` arm application of directModeAnnotations' loop body
(`annotations[key] = value` on a Go map). -/
def applyAnnKey (a : List (String × String)) (k v : String) : List (String × String) :=
  if k = "organizations" then upsertKV a "tsb.tetrate.io/organization" v
  else if k = "tenants" then upsertKV a "tsb.tetrate.io/tenant" v
  else if k = "workspaces" then upsertKV a "tsb.tetrate.io/workspace" v
  else if k = "trafficgroups" then upsertKV a "tsb.tetrate.io/trafficGroup" v
  else a

/-- The segment walk of directModeAnnotations, with the same out-of-range
panic case as `metaLoop`. -/
def annLoop : List String → List (String × String) → Option (List (String × String))
  | [], a => some a
  | [k], a => if k ∈ metaKeys then none else some a
  | k :: v :: rest, a => annLoop rest (applyAnnKey a k v)

/-- `directModeAnnotations` (part_000:349): decompose a group FQN into the
prefixed annotation map.  `none` models the out-of-range panic. -/
def directModeAnnotations (fqn : String) : Option (List (String × String)) :=
  annLoop (splitFQN fqn) []

/-- The segment walk of parseNamespace over one deployment FQN, collecting the
value after every `"namespaces"` key; trailing `"namespaces"` panics. -/
def nsLoop : List String → List String → Option (List String)
  | [], acc => some acc
  | [k], acc => if k = "namespaces" then none else some acc
  | k :: v :: rest, acc =>
    nsLoop rest (if k = "namespaces" then acc ++ [v] else acc)

/-- `parseNamespace` (part_000:455): namespaces of all deployments of a
service, in deployment order.  `none` models the out-of-range panic. -/
def parseNamespace (service : Service) : Option (List String) :=
  service.serviceDeployments.foldl
    (fun acc dep => acc.bind (fun res => nsLoop (splitFQN dep.fqn) res))
    (some [])

/-! ## Call graph builder (part_000: buildGraph) -/

/-- `Call` (part_000:374). -/
structure Call where
  sourceService : Service
  sourceNamespaces : List String
  sourceTrafficGroup : Option TrafficGroup
  targetService : Service
  targetNamespaces : List String
  deriving DecidableEq, Repr

/-- `Graph` (part_000:370). -/
structure Graph where
  calls : List Call
  deriving DecidableEq, Repr

/-- The outcome of `buildGraph`.  Go's signature is `*Graph` with no error
channel: `.nilGraph` models the bare `return nil` taken when the traffic-group
lookup errors (the error itself is only debug-logged and lost), and `.panicked`
models a runtime index-out-of-range panic in `parseNamespace`. -/
inductive BuildResult where
  | panicked
  | nilGraph
  | graph (g : Graph)
  deriving DecidableEq, Repr

/-- `servicesByTopKey`: every aggregation key of every service maps to that
service; later writes win exactly as in Go map assignment. -/
def servicesByTopKey (services : List Service) : List (String × Service) :=
  services.foldl
    (fun m svc => svc.metrics.foldl (fun m metric => upsertKV m metric.aggregationKey svc) m)
    []

/-- `idToTopKey`: node identifier to aggregation key. -/
def idToTopKey (top : TopologyResponse) : List (String × String) :=
  top.nodes.foldl (fun m node => upsertKV m node.id node.aggregationKey) []

/-- `servicesByID` as a lookup: compose the two indexes; ids whose key matches
no service are absent (the Go code materializes the same composition into a
third map). -/
def servicesByID (top : TopologyResponse) (services : List Service) (id : String) :
    Option Service :=
  (lookupKV (idToTopKey top) id).bind (fun key => lookupKV (servicesByTopKey services) key)

/-- The edge loop of `buildGraph`: resolve both endpoints (skip the edge when
either is absent), parse namespaces, look up the source's traffic group
(abort with `.nilGraph`, discarding the accumulator, on lookup error; a `nil`
group is kept and the Call still appended). -/
def buildLoop (lookupTG : Service → Except String (Option TrafficGroup))
    (index : String → Option Service) : List TopCall → List Call → BuildResult
  | [], acc => .graph ⟨acc⟩
  | t :: rest, acc =>
    match index t.source with
    | none => buildLoop lookupTG index rest acc
    | some source =>
      match index t.target with
      | none => buildLoop lookupTG index rest acc
      | some target =>
        match parseNamespace source with
        | none => .panicked
        | some srcNs =>
          match parseNamespace target with
          | none => .panicked
          | some tgtNs =>
            match lookupTG source with
            | .error _ => .nilGraph
            | .ok tg =>
              buildLoop lookupTG index rest (acc ++ [⟨source, srcNs, tg, target, tgtNs⟩])

/-- `buildGraph` (part_000:384). -/
def buildGraph (lookupTG : Service → Except String (Option TrafficGroup))
    (top : TopologyResponse) (services : List Service) : BuildResult :=
  buildLoop lookupTG (servicesByID top services) top.calls []

/-! ## Policy generator (part_000: generateSettings and helpers) -/

/-- Constants from the external `api` package (values as the spec describes
the kinds; only their distinctness matters to the claims). -/
def istioSidecarKind : String := "Sidecar"

/-- The TrafficSetting kind constant from the external `api` package. -/
def trafficSettingKind : String := "TrafficSetting"

/-- The Istio networking v1beta1 apiVersion constant from the external `api`
package. -/
def istioNetworkingBeta1API : String := "networking.istio.io/v1beta1"

/-- The TSB traffic apiVersion constant from the external `api` package. -/
def trafficAPI : String := "traffic.tsb.tetrate.io/v2"

/-- Modelled from the spec: the external `fqn.Tctl{}.FromMeta` collaborator
(tetrate's fqn package, not in this repository) renders a canonical FQN from
decomposed metadata; the spec says only that the synthesized setting gets "an
FQN assigned via the metadata decomposition", so the exact textual format is
a modelling choice no theorem depends on. -/
def tctlFromMeta (apiVersion kind : String) (m : ObjectMeta) : String :=
  apiVersion ++ "/" ++ kind ++ "/organizations/" ++ m.organization ++ "/tenants/" ++
    m.tenant ++ "/workspaces/" ++ m.workspace ++ "/trafficgroups/" ++ m.group

/-- The two base hosts every fresh host list is seeded with. -/
def baseHosts : List String := ["istio-system/*", "xcp-multicluster/*"]

/-- Generation failures: a traffic-setting fetch error (returned by
`generateBridgedModeTrafficSettings`), or a Go runtime panic
(nil-pointer dereference / index out of range). -/
inductive GenErr where
  | fetchErr (msg : String)
  | panicked
  deriving DecidableEq, Repr

/-- The mutable state of one generation pass.  `fetched` is instrumentation
only: it records each `GetTrafficSettings` call, in order, so that theorems
can speak about which fetches a run performs; it influences nothing. -/
structure GenState where
  sidecars : List (String × Sidecar) := []
  trafficSettings : List (String × TrafficSetting) := []
  trafficMeta : List (String × ObjectMeta) := []
  seenNs : List (String × List String) := []
  fetched : List String := []
  deriving DecidableEq, Repr

/-- `seenNs[ns]` as read by the merge loops: a missing key reads as the Go
nil slice, i.e. the empty list. -/
def seenOf (st : GenState) (ns : String) : List String :=
  (lookupKV st.seenNs ns).getD []

/-- `if _, ok := seenNs[ns]; !ok { seenNs[ns] = make([]string, 0) }`. -/
def ensureSeen (seen : List (String × List String)) (ns : String) :
    List (String × List String) :=
  match lookupKV seen ns with
  | some _ => seen
  | none => upsertKV seen ns []

/-- The inner target loop of `generateDirectModeSidecars` for one source
namespace: skip already-seen destinations, otherwise mark seen and append
`destNs + "/*"` to the namespace's sidecar egress hosts (no membership check
on the host list itself).  The sidecar entry always exists at this point;
its absence would be a Go nil-pointer panic, modelled as `.error`. -/
def directMerge (ns : String) : List String → GenState → Except GenErr GenState
  | [], st => .ok st
  | destNs :: rest, st =>
    let s := seenOf st ns
    if destNs ∈ s then directMerge ns rest st
    else
      let st' := { st with seenNs := upsertKV st.seenNs ns (s ++ [destNs]) }
      match lookupKV st'.sidecars ns with
      | none => .error .panicked
      | some sc =>
        directMerge ns rest
          { st' with
            sidecars := upsertKV st'.sidecars ns
              { sc with egressHosts := sc.egressHosts ++ [destNs ++ "/*"] } }

/-- `generateDirectModeSidecars` (part_000:170): per source namespace, ensure
a seen entry, create the sidecar seeded with the base hosts and the call's
annotations on first encounter, then merge the target namespaces. -/
def generateDirectModeSidecars (annotations : List (String × String))
    (targetNamespaces : List String) :
    List String → GenState → Except GenErr GenState
  | [], st => .ok st
  | ns :: rest, st =>
    let st := { st with seenNs := ensureSeen st.seenNs ns }
    let st :=
      match lookupKV st.sidecars ns with
      | some _ => st
      | none =>
        { st with
          sidecars := upsertKV st.sidecars ns
            ⟨"reachability-sidecar", ns, annotations, baseHosts⟩ }
    match directMerge ns targetNamespaces st with
    | .error e => .error e
    | .ok st => generateDirectModeSidecars annotations targetNamespaces rest st

/-- The inner target loop of `generateBridgedModeTrafficSettings` for one
source namespace: skip already-seen destinations, otherwise mark seen and,
if the host string is not already in the setting's reachability host list,
append it.  (The reachability-mode inspection in the Go code only emits a
debug warning and changes nothing.)  Writing through a `nil` reachability
block — or a missing map entry — is a Go nil-pointer panic, `.error`. -/
def bridgedMerge (gfqn ns : String) : List String → GenState → Except GenErr GenState
  | [], st => .ok st
  | destNs :: rest, st =>
    let s := seenOf st ns
    if destNs ∈ s then bridgedMerge gfqn ns rest st
    else
      let st' := { st with seenNs := upsertKV st.seenNs ns (s ++ [destNs]) }
      match lookupKV st'.trafficSettings gfqn with
      | none => .error .panicked
      | some ts =>
        if destNs ++ "/*" ∈ reachHosts ts then bridgedMerge gfqn ns rest st'
        else
          match ts.reachability with
          | none => .error .panicked
          | some r =>
            bridgedMerge gfqn ns rest
              { st' with
                trafficSettings := upsertKV st'.trafficSettings gfqn
                  { ts with reachability := some { r with hosts := r.hosts ++ [destNs ++ "/*"] } } }

/-- `generateBridgedModeTrafficSettings` (part_000:207): per source namespace,
ensure a seen entry; on first encounter of the group FQN fetch the remote
TrafficSetting (propagating a fetch error), synthesizing a default seeded
with the base hosts when none exists; then merge the target namespaces. -/
def generateBridgedModeTrafficSettings
    (fetch : String → Except String (Option TrafficSetting))
    (gfqn : String) (targetNamespaces : List String) (meta : ObjectMeta) :
    List String → GenState → Except GenErr GenState
  | [], st => .ok st
  | ns :: rest, st =>
    let st := { st with seenNs := ensureSeen st.seenNs ns }
    match lookupKV st.trafficSettings gfqn with
    | some _ =>
      match bridgedMerge gfqn ns targetNamespaces st with
      | .error e => .error e
      | .ok st => generateBridgedModeTrafficSettings fetch gfqn targetNamespaces meta rest st
    | none =>
      match fetch gfqn with
      | .error e => .error (.fetchErr e)
      | .ok fetched =>
        let settings :=
          match fetched with
          | some s => s
          | none =>
            { reachability := some { hosts := baseHosts },
              fqn := tctlFromMeta trafficAPI trafficSettingKind meta }
        let st :=
          { st with
            trafficSettings := upsertKV st.trafficSettings gfqn settings,
            fetched := st.fetched ++ [gfqn] }
        match bridgedMerge gfqn ns targetNamespaces st with
        | .error e => .error e
        | .ok st => generateBridgedModeTrafficSettings fetch gfqn targetNamespaces meta rest st

/-- One iteration of the call loop in `generateSettings` (part_000:266-284):
skip null-governed Calls, dispatch on the source traffic group's configMode
(`"DIRECT"` versus everything else), decomposing the group FQN first
(its out-of-range panic, when the FQN is malformed, aborts the run). -/
def processCall (fetch : String → Except String (Option TrafficSetting))
    (st : GenState) (call : Call) : Except GenErr GenState :=
  match call.sourceTrafficGroup with
  | none => .ok st
  | some tg =>
    if tg.configMode = "DIRECT" then
      match directModeAnnotations tg.fqn with
      | none => .error .panicked
      | some annotations =>
        generateDirectModeSidecars annotations call.targetNamespaces
          call.sourceNamespaces st
    else
      match bridgedModeMeta tg.fqn with
      | none => .error .panicked
      | some meta =>
        let st := { st with trafficMeta := upsertKV st.trafficMeta tg.fqn meta }
        generateBridgedModeTrafficSettings fetch tg.fqn call.targetNamespaces meta
          call.sourceNamespaces st

/-- The full call loop of `generateSettings`. -/
def processCalls (fetch : String → Except String (Option TrafficSetting)) :
    GenState → List Call → Except GenErr GenState
  | st, [] => .ok st
  | st, call :: rest =>
    match processCall fetch st call with
    | .error e => .error e
    | .ok st => processCalls fetch st rest

/-- The spec payload of an emitted object: a tagged union over the two kinds
(the Go code erases this into `anypb.Any`; the tag is recovered from `kind`). -/
inductive ObjectSpec where
  | sidecarSpec (egressHosts : List String)
  | trafficSettingSpec (ts : TrafficSetting)
  deriving DecidableEq, Repr

/-- `typesv2.Object` as emitted: metadata (a Go `nil` pointer is `none`),
apiVersion, kind and the spec payload. -/
structure PolicyObject where
  metadata : Option ObjectMeta
  apiVersion : String
  kind : String
  spec : ObjectSpec
  deriving DecidableEq, Repr

/-- The emission loops at the end of `generateSettings` (part_000:286-322):
every accumulated sidecar first, then every accumulated traffic setting,
whose metadata is looked up in the meta cache by the setting's own FQN field
(a Go nil pointer, hence `none`, when the key is absent).  The `anypb.New`
packaging cannot fail for these in-memory messages, so emission is total;
Go map iteration order is unspecified, the association-list order here is
one admissible order and no theorem depends on the order within a kind. -/
def emitObjects (st : GenState) : List PolicyObject :=
  st.sidecars.map (fun p =>
    { metadata := some
        { name := p.2.name, namespaceName := p.2.namespaceName,
          labels := [], annotations := p.2.annotations },
      apiVersion := istioNetworkingBeta1API,
      kind := istioSidecarKind,
      spec := .sidecarSpec p.2.egressHosts })
  ++ st.trafficSettings.map (fun p =>
    { metadata := lookupKV st.trafficMeta p.2.fqn,
      apiVersion := trafficAPI,
      kind := trafficSettingKind,
      spec := .trafficSettingSpec p.2 })

/-- `generateSettings` (part_000:255): run the call loop from empty state and
emit the accumulated objects. -/
def generateSettings (fetch : String → Except String (Option TrafficSetting))
    (graph : Graph) : Except GenErr (List PolicyObject) :=
  match processCalls fetch {} graph.calls with
  | .error e => .error e
  | .ok st => .ok (emitObjects st)

/-! ## Concrete fixtures used by witnesses and counterexamples -/

/-- Example service svcA: topology key "keyA", deployed in namespace ns-a. -/
def exSvcA : Service := ⟨"svcA", [⟨"keyA"⟩], [⟨"d/namespaces/ns-a"⟩]⟩

/-- Example service svcB: topology key "keyB", deployed in namespace ns-b. -/
def exSvcB : Service := ⟨"svcB", [⟨"keyB"⟩], [⟨"d/namespaces/ns-b"⟩]⟩

/-- A service whose deployment FQN ends in a bare "namespaces" key. -/
def exSvcBad : Service := ⟨"svcBad", [], [⟨"namespaces"⟩]⟩

/-- Topology: nodes n1 (keyA) and n2 (keyB); edges n1→n2 and n2→n1. -/
def exTop : TopologyResponse :=
  ⟨[⟨"n1", "keyA"⟩, ⟨"n2", "keyB"⟩], [⟨"e1", "n1", "n2"⟩, ⟨"e2", "n2", "n1"⟩]⟩

/-- Topology with one edge whose target node id resolves to no service. -/
def exTopBad : TopologyResponse :=
  ⟨[⟨"n1", "keyA"⟩], [⟨"e1", "n1", "nX"⟩]⟩

/-- A DIRECT-mode traffic group with a well-formed FQN. -/
def exGroupDirect : TrafficGroup :=
  ⟨"DIRECT", "organizations/o/tenants/t/workspaces/w/trafficgroups/g"⟩

/-- A bridged-mode traffic group with a well-formed FQN. -/
def exGroupBridged : TrafficGroup :=
  ⟨"BRIDGED", "organizations/o/tenants/t/workspaces/w/trafficgroups/g2"⟩

/-- A lookup collaborator that fails on svcB and succeeds elsewhere. -/
def exLookupErr : Service → Except String (Option TrafficGroup) :=
  fun svc => if svc.fqn = "svcB" then .error "lookup failed" else .ok (some exGroupDirect)

/-- A traffic-setting fetch collaborator that reports no remote setting. -/
def exFetchNone : String → Except String (Option TrafficSetting) :=
  fun _ => .ok none

/-- A direct-governed Call from ns-a to ns-b. -/
def exCallDir : Call := ⟨exSvcA, ["ns-a"], some exGroupDirect, exSvcB, ["ns-b"]⟩

/-- A direct-governed Call whose destination namespace is the base namespace
istio-system. -/
def exCallDupIstio : Call :=
  ⟨exSvcA, ["ns-a"], some exGroupDirect, exSvcB, ["istio-system"]⟩

/-- A bridged-governed Call from ns-a to ns-b. -/
def exCallBridged : Call := ⟨exSvcA, ["ns-a"], some exGroupBridged, exSvcB, ["ns-b"]⟩

/-- A generation state in which destination ns-b is already recorded as seen
for source ns-a. -/
def exSeenState : GenState := { seenNs := [("ns-a", ["ns-b"])] }

/-- A bridged-governed Call with a non-null traffic group but an empty source
namespace set. -/
def exCallEmptySrc : Call := ⟨exSvcA, [], some exGroupBridged, exSvcB, ["ns-b"]⟩

/-- The canonical group FQN of the round-trip claim:
`"organizations/O/tenants/T/workspaces/W/trafficgroups/G"`. -/
def mkGroupFQN (O T W G : String) : String :=
  "organizations/" ++ O ++ "/tenants/" ++ T ++ "/workspaces/" ++ W ++
    "/trafficgroups/" ++ G

/-! ## Basic lemmas: association lists, seen map, host strings -/

theorem lookupKV_upsertKV_self {α : Type} (m : List (String × α)) (k : String) (v : α) :
    lookupKV (upsertKV m k v) k = some v := by
  induction m with
  | nil => simp [lookupKV, upsertKV]
  | cons p rest ih =>
    by_cases h : p.1 = k
    · simp [lookupKV, upsertKV, h]
    · simp [lookupKV, upsertKV, h, ih]

theorem lookupKV_upsertKV_ne {α : Type} (m : List (String × α)) {k k' : String} (v : α)
    (h : k' ≠ k) : lookupKV (upsertKV m k v) k' = lookupKV m k' := by
  induction m with
  | nil => simp [lookupKV, upsertKV, Ne.symm h]
  | cons p rest ih =>
    rcases p with ⟨pk, pv⟩
    by_cases hp : pk = k
    · subst hp
      simp [lookupKV, upsertKV, Ne.symm h]
    · by_cases hp' : pk = k'
      · simp [lookupKV, upsertKV, hp, hp', h]
      · simp [lookupKV, upsertKV, hp, hp', ih]

theorem seenOf_upsert_self (st : GenState) (ns : String) (l : List String) :
    seenOf { st with seenNs := upsertKV st.seenNs ns l } ns = l := by
  simp [seenOf, lookupKV_upsertKV_self]

theorem seenOf_upsert_ne (st : GenState) {ns k : String} (l : List String) (h : k ≠ ns) :
    seenOf { st with seenNs := upsertKV st.seenNs ns l } k = seenOf st k := by
  simp [seenOf, lookupKV_upsertKV_ne _ _ h]

theorem seenOf_ensureSeen (st : GenState) (ns k : String) :
    seenOf { st with seenNs := ensureSeen st.seenNs ns } k = seenOf st k := by
  unfold ensureSeen
  cases hl : lookupKV st.seenNs ns with
  | some l => simp
  | none =>
    by_cases h : k = ns
    · subst h
      simp [seenOf, lookupKV_upsertKV_self, hl]
    · simp [seenOf, lookupKV_upsertKV_ne _ _ h]

theorem string_data_append (a b : String) : (a ++ b).data = a.data ++ b.data := rfl

theorem string_eq_of_data {a b : String} (h : a.data = b.data) : a = b := by
  cases a with
  | mk l1 =>
    cases b with
    | mk l2 => exact congrArg String.mk h

/-- Appending `"/*"` to a namespace is injective: distinct namespaces give
distinct host strings. -/
theorem star_inj {a b : String} (h : a ++ "/*" = b ++ "/*") : a = b := by
  have hd : a.data ++ "/*".data = b.data ++ "/*".data := by
    have := congrArg String.data h
    simpa [string_data_append] using this
  exact string_eq_of_data (List.append_cancel_right hd)

theorem count_append_star (hosts : List String) (d destNs : String) :
    (hosts ++ [destNs ++ "/*"]).count (d ++ "/*") =
      hosts.count (d ++ "/*") + (if destNs = d then 1 else 0) := by
  rcases eq_or_ne destNs d with h | h
  · subst h
    simp [List.count_append]
  · have : ¬(d ++ "/*" = destNs ++ "/*") := fun hc => h (star_inj hc.symm)
    simp [List.count_append, List.count_singleton', this, h]

theorem count_baseHosts {d : String} (h1 : d ≠ "istio-system") (h2 : d ≠ "xcp-multicluster") :
    baseHosts.count (d ++ "/*") = 0 := by
  have e1 : ("istio-system/*" : String) = "istio-system" ++ "/*" := by decide
  have e2 : ("xcp-multicluster/*" : String) = "xcp-multicluster" ++ "/*" := by decide
  have n1 : d ++ "/*" ≠ "istio-system/*" := by
    rw [e1]
    exact fun hc => h1 (star_inj hc)
  have n2 : d ++ "/*" ≠ "xcp-multicluster/*" := by
    rw [e2]
    exact fun hc => h2 (star_inj hc)
  simp [baseHosts, List.count_cons, n1, n2]

theorem count_eq_zero_of_not_mem {l : List String} {a : String} (h : a ∉ l) :
    l.count a = 0 :=
  List.count_eq_zero.mpr h

/-! ## Lemmas about the FQN split and segment walks -/

theorem string_toList_append (a b : String) : (a ++ b).toList = a.toList ++ b.toList := rfl

theorem string_mk_toList (s : String) : String.mk s.toList = s := rfl

theorem splitSlash_no_slash (cs : List Char) (h : '/' ∉ cs) : splitSlash cs = [cs] := by
  induction cs with
  | nil => rfl
  | cons c rest ih =>
    have hc : c ≠ '/' := fun hc => h (hc ▸ List.mem_cons_self c rest)
    have hr : '/' ∉ rest := fun hr => h (List.mem_cons_of_mem c hr)
    simp [splitSlash, hc, ih hr, List.modifyHead]

theorem splitSlash_append (cs ys : List Char) (h : '/' ∉ cs) :
    splitSlash (cs ++ '/' :: ys) = cs :: splitSlash ys := by
  induction cs with
  | nil => simp [splitSlash]
  | cons c rest ih =>
    have hc : c ≠ '/' := fun hc => h (hc ▸ List.mem_cons_self c rest)
    have hr : '/' ∉ rest := fun hr => h (List.mem_cons_of_mem c hr)
    simp [splitSlash, hc, ih hr, List.modifyHead]

/-- Peeling one slash-free segment off the front of an FQN. -/
theorem splitFQN_seg (seg rest : String) (h : '/' ∉ seg.toList) :
    splitFQN (seg ++ "/" ++ rest) = seg :: splitFQN rest := by
  unfold splitFQN
  have hl : (seg ++ "/" ++ rest).toList = seg.toList ++ '/' :: rest.toList := by
    simp [string_toList_append, List.append_assoc]
  rw [hl, splitSlash_append _ _ h]
  simp [string_mk_toList]

/-- A slash-free string splits into itself. -/
theorem splitFQN_single (s : String) (h : '/' ∉ s.toList) : splitFQN s = [s] := by
  unfold splitFQN
  rw [splitSlash_no_slash _ h]
  simp [string_mk_toList]

theorem metaLoop_isSome (parts : List String) (m : ObjectMeta)
    (h : parts.length % 2 = 0 ∨ ∀ k, parts.getLast? = some k → k ∉ metaKeys) :
    (metaLoop parts m).isSome := by
  induction parts, m using metaLoop.induct with
  | case1 m => simp [metaLoop]
  | case2 k m hk =>
    rcases h with h | h
    · simp at h
    · exact absurd hk (h k rfl)
  | case3 k m hk => simp [metaLoop, hk]
  | case4 k v rest m ih =>
    rcases rest with _ | ⟨r, rs⟩
    · simp [metaLoop]
    · show (metaLoop (r :: rs) (applyMetaKey m k v)).isSome
      apply ih
      rcases h with h | h
      · left
        simp [List.length_cons] at h ⊢
        omega
      · right
        intro k' hk'
        apply h
        simpa [List.getLast?_cons_cons] using hk'

theorem annLoop_isSome (parts : List String) (a : List (String × String))
    (h : parts.length % 2 = 0 ∨ ∀ k, parts.getLast? = some k → k ∉ metaKeys) :
    (annLoop parts a).isSome := by
  induction parts, a using annLoop.induct with
  | case1 a => simp [annLoop]
  | case2 k a hk =>
    rcases h with h | h
    · simp at h
    · exact absurd hk (h k rfl)
  | case3 k a hk => simp [annLoop, hk]
  | case4 k v rest a ih =>
    rcases rest with _ | ⟨r, rs⟩
    · simp [annLoop]
    · show (annLoop (r :: rs) (applyAnnKey a k v)).isSome
      apply ih
      rcases h with h | h
      · left
        simp [List.length_cons] at h ⊢
        omega
      · right
        intro k' hk'
        apply h
        simpa [List.getLast?_cons_cons] using hk'

theorem nsLoop_isSome (parts : List String) (acc : List String)
    (h : parts.length % 2 = 0 ∨ ∀ k, parts.getLast? = some k → k ≠ "namespaces") :
    (nsLoop parts acc).isSome := by
  induction parts, acc using nsLoop.induct with
  | case1 acc => simp [nsLoop]
  | case2 acc =>
    rcases h with h | h
    · simp at h
    · exact absurd rfl (h "namespaces" rfl)
  | case3 k acc hk => simp [nsLoop, hk]
  | case4 k v rest acc ih =>
    rcases rest with _ | ⟨r, rs⟩
    · simp [nsLoop]
    · show (nsLoop (r :: rs) _).isSome
      apply ih
      rcases h with h | h
      · left
        simp [List.length_cons] at h ⊢
        omega
      · right
        intro k' hk'
        apply h
        simpa [List.getLast?_cons_cons] using hk'

theorem foldNs_isSome (deps : List ServiceDeployment) (acc : List String)
    (h : ∀ dep ∈ deps,
      (splitFQN dep.fqn).length % 2 = 0 ∨
        ∀ k, (splitFQN dep.fqn).getLast? = some k → k ≠ "namespaces") :
    (deps.foldl (fun a dep => a.bind (fun res => nsLoop (splitFQN dep.fqn) res))
      (some acc)).isSome := by
  induction deps generalizing acc with
  | nil => simp
  | cons dep rest ih =>
    have hdep := h dep (List.mem_cons_self dep rest)
    rcases Option.isSome_iff_exists.mp (nsLoop_isSome (splitFQN dep.fqn) acc hdep) with
      ⟨acc', hacc'⟩
    simp only [List.foldl_cons, Option.bind_eq_bind, Option.some_bind, hacc']
    exact ih acc' (fun d hd => h d (List.mem_cons_of_mem dep hd))

theorem parseNamespace_isSome (svc : Service)
    (h : ∀ dep ∈ svc.serviceDeployments,
      (splitFQN dep.fqn).length % 2 = 0 ∨
        ∀ k, (splitFQN dep.fqn).getLast? = some k → k ≠ "namespaces") :
    (parseNamespace svc).isSome :=
  foldNs_isSome svc.serviceDeployments [] h

/-! ## Generator state observations -/

/-- The egress host list of the sidecar for a namespace (empty when absent). -/
def sHostsOf (st : GenState) (k : String) : List String :=
  ((lookupKV st.sidecars k).map Sidecar.egressHosts).getD []

/-- The reachability host list of the traffic setting for a group FQN (empty
when absent). -/
def tHostsOf (st : GenState) (k : String) : List String :=
  ((lookupKV st.trafficSettings k).map reachHosts).getD []

theorem sHostsOf_upsert_self (st : GenState) (m : List (String × List String))
    (ns : String) (sc : Sidecar) :
    sHostsOf { st with seenNs := m, sidecars := upsertKV st.sidecars ns sc } ns =
      sc.egressHosts := by
  simp [sHostsOf, lookupKV_upsertKV_self]

theorem sHostsOf_upsert_ne (st : GenState) (m : List (String × List String))
    {ns k : String} (sc : Sidecar) (h : k ≠ ns) :
    sHostsOf { st with seenNs := m, sidecars := upsertKV st.sidecars ns sc } k =
      sHostsOf st k := by
  simp [sHostsOf, lookupKV_upsertKV_ne _ _ h]

theorem tHostsOf_upsert_self (st : GenState) (m : List (String × List String))
    (g : String) (ts : TrafficSetting) :
    tHostsOf { st with seenNs := m, trafficSettings := upsertKV st.trafficSettings g ts } g =
      reachHosts ts := by
  simp [tHostsOf, lookupKV_upsertKV_self]

theorem tHostsOf_upsert_ne (st : GenState) (m : List (String × List String))
    {g k : String} (ts : TrafficSetting) (h : k ≠ g) :
    tHostsOf { st with seenNs := m, trafficSettings := upsertKV st.trafficSettings g ts } k =
      tHostsOf st k := by
  simp [tHostsOf, lookupKV_upsertKV_ne _ _ h]

/-! ## directMerge lemmas -/

theorem directMerge_frame {ns : String} {tgts : List String} {st st' : GenState}
    (h : directMerge ns tgts st = .ok st') :
    st'.trafficSettings = st.trafficSettings ∧ st'.trafficMeta = st.trafficMeta ∧
      st'.fetched = st.fetched := by
  induction tgts generalizing st with
  | nil =>
    simp only [directMerge, Except.ok.injEq] at h
    subst h
    exact ⟨rfl, rfl, rfl⟩
  | cons destNs rest ih =>
    simp only [directMerge] at h
    split at h
    · exact ih h
    · split at h
      · exact absurd h (by simp)
      · simpa using ih h

theorem directMerge_sidecars_ne {ns : String} {tgts : List String} {st st' : GenState}
    (h : directMerge ns tgts st = .ok st') {k : String} (hk : k ≠ ns) :
    lookupKV st'.sidecars k = lookupKV st.sidecars k := by
  induction tgts generalizing st with
  | nil =>
    simp only [directMerge, Except.ok.injEq] at h
    subst h
    rfl
  | cons destNs rest ih =>
    simp only [directMerge] at h
    split at h
    · exact ih h
    · split at h
      · exact absurd h (by simp)
      · rw [ih h]
        simp [lookupKV_upsertKV_ne _ _ hk]

theorem directMerge_seen_ne {ns : String} {tgts : List String} {st st' : GenState}
    (h : directMerge ns tgts st = .ok st') {k : String} (hk : k ≠ ns) :
    seenOf st' k = seenOf st k := by
  induction tgts generalizing st with
  | nil =>
    simp only [directMerge, Except.ok.injEq] at h
    subst h
    rfl
  | cons destNs rest ih =>
    simp only [directMerge] at h
    split at h
    · exact ih h
    · split at h
      · exact absurd h (by simp)
      · rw [ih h]
        simp [seenOf, lookupKV_upsertKV_ne _ _ hk]

theorem directMerge_seen_mono {ns : String} {tgts : List String} {st st' : GenState}
    (h : directMerge ns tgts st = .ok st') {k x : String} (hx : x ∈ seenOf st k) :
    x ∈ seenOf st' k := by
  induction tgts generalizing st with
  | nil =>
    simp only [directMerge, Except.ok.injEq] at h
    subst h
    exact hx
  | cons destNs rest ih =>
    simp only [directMerge] at h
    split at h
    · exact ih h hx
    · split at h
      · exact absurd h (by simp)
      · apply ih h
        by_cases hk : k = ns
        · subst hk
          simp only [seenOf, lookupKV_upsertKV_self, Option.getD_some]
          exact List.mem_append_left _ hx
        · simpa [seenOf, lookupKV_upsertKV_ne _ _ hk] using hx

theorem directMerge_seen_from {ns : String} {tgts : List String} {st st' : GenState}
    (h : directMerge ns tgts st = .ok st') {x : String} (hx : x ∈ seenOf st' ns) :
    x ∈ seenOf st ns ∨ x ∈ tgts := by
  induction tgts generalizing st with
  | nil =>
    simp only [directMerge, Except.ok.injEq] at h
    subst h
    exact Or.inl hx
  | cons destNs rest ih =>
    simp only [directMerge] at h
    split at h
    · rcases ih h with hin | hin
      · exact Or.inl hin
      · exact Or.inr (List.mem_cons_of_mem _ hin)
    · split at h
      · exact absurd h (by simp)
      · rcases ih h with hin | hin
        · simp only [seenOf, lookupKV_upsertKV_self, Option.getD_some] at hin
          rcases List.mem_append.mp hin with hin | hin
          · exact Or.inl hin
          · simp at hin
            subst hin
            exact Or.inr (List.mem_cons_self _ _)
        · exact Or.inr (List.mem_cons_of_mem _ hin)

theorem directMerge_marks {ns : String} {tgts : List String} {st st' : GenState}
    (h : directMerge ns tgts st = .ok st') {d : String} (hd : d ∈ tgts) :
    d ∈ seenOf st' ns := by
  induction tgts generalizing st with
  | nil => exact absurd hd (List.not_mem_nil d)
  | cons destNs rest ih =>
    simp only [directMerge] at h
    rcases List.mem_cons.mp hd with hdd | hdd
    · subst hdd
      split at h
      · next hmem => exact directMerge_seen_mono h hmem
      · split at h
        · exact absurd h (by simp)
        · apply directMerge_seen_mono h
          simp only [seenOf, lookupKV_upsertKV_self, Option.getD_some]
          exact List.mem_append_right _ (List.mem_singleton.mpr rfl)
    · split at h
      · exact ih h hdd
      · split at h
        · exact absurd h (by simp)
        · exact ih h hdd

/-- Within `directMerge` sidecar entries are never created or removed, only
their host lists extended. -/
theorem directMerge_hosts {ns : String} {tgts : List String} {st st' : GenState}
    (h : directMerge ns tgts st = .ok st') {k : String} {sc' : Sidecar}
    (hk : lookupKV st'.sidecars k = some sc') :
    ∃ sc ext, lookupKV st.sidecars k = some sc ∧
      sc'.egressHosts = sc.egressHosts ++ ext ∧ sc'.name = sc.name ∧
      sc'.namespaceName = sc.namespaceName ∧ sc'.annotations = sc.annotations := by
  induction tgts generalizing st with
  | nil =>
    simp only [directMerge, Except.ok.injEq] at h
    subst h
    exact ⟨sc', [], hk, by simp, rfl, rfl, rfl⟩
  | cons destNs rest ih =>
    simp only [directMerge] at h
    split at h
    · exact ih h
    · split at h
      · exact absurd h (by simp)
      · next sc hsc =>
        rcases ih h with ⟨scm, ext, hm, hho, hn, hns, han⟩
        by_cases hkn : k = ns
        · subst hkn
          rw [show lookupKV
              (upsertKV st.sidecars k
                { sc with egressHosts := sc.egressHosts ++ [destNs ++ "/*"] }) k =
              some { sc with egressHosts := sc.egressHosts ++ [destNs ++ "/*"] } from
              lookupKV_upsertKV_self _ _ _] at hm
          cases hm
          refine ⟨sc, (destNs ++ "/*") :: ext, ?_, ?_, hn, hns, han⟩
          · simpa using hsc
          · simpa [List.append_assoc] using hho
        · rw [lookupKV_upsertKV_ne _ _ hkn] at hm
          exact ⟨scm, ext, hm, hho, hn, hns, han⟩

/-! ## bridgedMerge lemmas -/

theorem bridgedMerge_frame {gfqn ns : String} {tgts : List String} {st st' : GenState}
    (h : bridgedMerge gfqn ns tgts st = .ok st') :
    st'.sidecars = st.sidecars ∧ st'.trafficMeta = st.trafficMeta ∧
      st'.fetched = st.fetched := by
  induction tgts generalizing st with
  | nil =>
    simp only [bridgedMerge, Except.ok.injEq] at h
    subst h
    exact ⟨rfl, rfl, rfl⟩
  | cons destNs rest ih =>
    simp only [bridgedMerge] at h
    split at h
    · exact ih h
    · split at h
      · exact absurd h (by simp)
      · split at h
        · simpa using ih h
        · split at h
          · exact absurd h (by simp)
          · simpa using ih h

theorem bridgedMerge_settings_ne {gfqn ns : String} {tgts : List String} {st st' : GenState}
    (h : bridgedMerge gfqn ns tgts st = .ok st') {k : String} (hk : k ≠ gfqn) :
    lookupKV st'.trafficSettings k = lookupKV st.trafficSettings k := by
  induction tgts generalizing st with
  | nil =>
    simp only [bridgedMerge, Except.ok.injEq] at h
    subst h
    rfl
  | cons destNs rest ih =>
    simp only [bridgedMerge] at h
    split at h
    · exact ih h
    · split at h
      · exact absurd h (by simp)
      · split at h
        · rw [ih h]
        · split at h
          · exact absurd h (by simp)
          · rw [ih h]
            simp [lookupKV_upsertKV_ne _ _ hk]

theorem bridgedMerge_seen_ne {gfqn ns : String} {tgts : List String} {st st' : GenState}
    (h : bridgedMerge gfqn ns tgts st = .ok st') {k : String} (hk : k ≠ ns) :
    seenOf st' k = seenOf st k := by
  induction tgts generalizing st with
  | nil =>
    simp only [bridgedMerge, Except.ok.injEq] at h
    subst h
    rfl
  | cons destNs rest ih =>
    simp only [bridgedMerge] at h
    split at h
    · exact ih h
    · split at h
      · exact absurd h (by simp)
      · split at h
        · rw [ih h]
          simp [seenOf, lookupKV_upsertKV_ne _ _ hk]
        · split at h
          · exact absurd h (by simp)
          · rw [ih h]
            simp [seenOf, lookupKV_upsertKV_ne _ _ hk]

theorem bridgedMerge_seen_mono {gfqn ns : String} {tgts : List String} {st st' : GenState}
    (h : bridgedMerge gfqn ns tgts st = .ok st') {k x : String} (hx : x ∈ seenOf st k) :
    x ∈ seenOf st' k := by
  induction tgts generalizing st with
  | nil =>
    simp only [bridgedMerge, Except.ok.injEq] at h
    subst h
    exact hx
  | cons destNs rest ih =>
    simp only [bridgedMerge] at h
    have hstep : ∀ {m : List (String × TrafficSetting)},
        x ∈ seenOf { st with
          seenNs := upsertKV st.seenNs ns (seenOf st ns ++ [destNs]),
          trafficSettings := m } k := by
      intro m
      by_cases hk : k = ns
      · subst hk
        simp only [seenOf, lookupKV_upsertKV_self, Option.getD_some]
        exact List.mem_append_left _ hx
      · simpa [seenOf, lookupKV_upsertKV_ne _ _ hk] using hx
    split at h
    · exact ih h hx
    · split at h
      · exact absurd h (by simp)
      · split at h
        · exact ih h hstep
        · split at h
          · exact absurd h (by simp)
          · exact ih h hstep

theorem bridgedMerge_seen_from {gfqn ns : String} {tgts : List String} {st st' : GenState}
    (h : bridgedMerge gfqn ns tgts st = .ok st') {x : String} (hx : x ∈ seenOf st' ns) :
    x ∈ seenOf st ns ∨ x ∈ tgts := by
  induction tgts generalizing st with
  | nil =>
    simp only [bridgedMerge, Except.ok.injEq] at h
    subst h
    exact Or.inl hx
  | cons destNs rest ih =>
    simp only [bridgedMerge] at h
    have hstep : ∀ {y : String}, y ∈ seenOf st ns ++ [destNs] →
        y ∈ seenOf st ns ∨ y ∈ destNs :: rest := by
      intro y hy
      rcases List.mem_append.mp hy with hy | hy
      · exact Or.inl hy
      · simp at hy
        subst hy
        exact Or.inr (List.mem_cons_self _ _)
    split at h
    · rcases ih h with hin | hin
      · exact Or.inl hin
      · exact Or.inr (List.mem_cons_of_mem _ hin)
    · split at h
      · exact absurd h (by simp)
      · split at h
        · rcases ih h with hin | hin
          · apply hstep
            simpa [seenOf, lookupKV_upsertKV_self] using hin
          · exact Or.inr (List.mem_cons_of_mem _ hin)
        · split at h
          · exact absurd h (by simp)
          · rcases ih h with hin | hin
            · apply hstep
              simpa [seenOf, lookupKV_upsertKV_self] using hin
            · exact Or.inr (List.mem_cons_of_mem _ hin)

theorem bridgedMerge_marks {gfqn ns : String} {tgts : List String} {st st' : GenState}
    (h : bridgedMerge gfqn ns tgts st = .ok st') {d : String} (hd : d ∈ tgts) :
    d ∈ seenOf st' ns := by
  induction tgts generalizing st with
  | nil => exact absurd hd (List.not_mem_nil d)
  | cons destNs rest ih =>
    simp only [bridgedMerge] at h
    have hstep : ∀ {m : List (String × TrafficSetting)},
        destNs ∈ seenOf { st with
          seenNs := upsertKV st.seenNs ns (seenOf st ns ++ [destNs]),
          trafficSettings := m } ns := by
      intro m
      simp only [seenOf, lookupKV_upsertKV_self, Option.getD_some]
      exact List.mem_append_right _ (List.mem_singleton.mpr rfl)
    rcases List.mem_cons.mp hd with hdd | hdd
    · subst hdd
      split at h
      · next hmem => exact bridgedMerge_seen_mono h hmem
      · split at h
        · exact absurd h (by simp)
        · split at h
          · exact bridgedMerge_seen_mono h hstep
          · split at h
            · exact absurd h (by simp)
            · exact bridgedMerge_seen_mono h hstep
    · split at h
      · exact ih h hdd
      · split at h
        · exact absurd h (by simp)
        · split at h
          · exact ih h hdd
          · split at h
            · exact absurd h (by simp)
            · exact ih h hdd

/-- Within `bridgedMerge` traffic-setting entries are never created or
removed; only the host list of the entry at the group FQN is extended, and
the FQN field and reachability presence are preserved. -/
theorem bridgedMerge_settings {gfqn ns : String} {tgts : List String} {st st' : GenState}
    (h : bridgedMerge gfqn ns tgts st = .ok st') {k : String} {ts' : TrafficSetting}
    (hk : lookupKV st'.trafficSettings k = some ts') :
    ∃ ts ext, lookupKV st.trafficSettings k = some ts ∧
      reachHosts ts' = reachHosts ts ++ ext ∧ ts'.fqn = ts.fqn := by
  induction tgts generalizing st with
  | nil =>
    simp only [bridgedMerge, Except.ok.injEq] at h
    subst h
    exact ⟨ts', [], hk, by simp, rfl⟩
  | cons destNs rest ih =>
    simp only [bridgedMerge] at h
    split at h
    · exact ih h
    · split at h
      · exact absurd h (by simp)
      · next ts hts =>
        split at h
        · simpa using ih h
        · split at h
          · exact absurd h (by simp)
          · next r hr =>
            rcases ih h with ⟨tsm, ext, hm, hho, hf⟩
            by_cases hkg : k = gfqn
            · subst hkg
              rw [show lookupKV (upsertKV st.trafficSettings k
                  { ts with reachability := some { r with hosts := r.hosts ++ [destNs ++ "/*"] } }) k =
                  some { ts with reachability := some { r with hosts := r.hosts ++ [destNs ++ "/*"] } } from
                  lookupKV_upsertKV_self _ _ _] at hm
              cases hm
              refine ⟨ts, (destNs ++ "/*") :: ext, by simpa using hts, ?_, by simpa using hf⟩
              have hts' : reachHosts ts = r.hosts := by simp [reachHosts, hr]
              simp only [reachHosts] at hho
              rw [hts']
              simpa [List.append_assoc] using hho
            · rw [lookupKV_upsertKV_ne _ _ hkg] at hm
              exact ⟨tsm, ext, hm, hho, hf⟩

/-! ## Dedup invariants -/

/-- Direct-mode dedup invariant for a fixed pair (s, d): once `d` is recorded
as seen for `s`, the sidecar for `s` exists and its egress hosts contain
`d + "/*"` exactly once; before that, they contain it zero times. -/
def InvD (s d : String) (st : GenState) : Prop :=
  (d ∈ seenOf st s →
    (lookupKV st.sidecars s).isSome ∧ (sHostsOf st s).count (d ++ "/*") = 1) ∧
  (d ∉ seenOf st s → (sHostsOf st s).count (d ++ "/*") = 0)

/-- Bridged-mode dedup invariant for a fixed pair (s, d) governed by group
FQN `g`: every traffic setting holds `d + "/*"` at most once, and once `d`
is recorded as seen for `s`, the setting for `g` exists and holds it exactly
once. -/
def InvB (s d g : String) (st : GenState) : Prop :=
  (∀ k, (tHostsOf st k).count (d ++ "/*") ≤ 1) ∧
  (d ∈ seenOf st s →
    (lookupKV st.trafficSettings g).isSome ∧ (tHostsOf st g).count (d ++ "/*") = 1)

theorem directMerge_InvD {s d ns : String} {tgts : List String} {st st' : GenState}
    (h : directMerge ns tgts st = .ok st') (hI : InvD s d st) : InvD s d st' := by
  induction tgts generalizing st with
  | nil =>
    simp only [directMerge, Except.ok.injEq] at h
    subst h
    exact hI
  | cons destNs rest ih =>
    simp only [directMerge] at h
    split at h
    · exact ih h hI
    · next hmem =>
      split at h
      · exact absurd h (by simp)
      · next sc hsc =>
        refine ih h ?_
        by_cases hns : ns = s
        · subst hns
          have hsH : sHostsOf st ns = sc.egressHosts := by
            simp [sHostsOf, hsc]
          by_cases hdd : destNs = d
          · subst hdd
            have hd0 : (sHostsOf st ns).count (destNs ++ "/*") = 0 := hI.2 hmem
            constructor
            · intro _
              constructor
              · simp [lookupKV_upsertKV_self]
              · rw [sHostsOf_upsert_self]
                simp only [count_append_star]
                rw [hsH] at hd0
                simp [hd0]
            · intro hn
              exact absurd (by
                simp only [seenOf, lookupKV_upsertKV_self, Option.getD_some]
                exact List.mem_append_right _ (List.mem_singleton.mpr rfl)) hn
          · have hmemiff :
                (d ∈ seenOf { st with
                  seenNs := upsertKV st.seenNs ns (seenOf st ns ++ [destNs]),
                  sidecars := upsertKV st.sidecars ns
                    { sc with egressHosts := sc.egressHosts ++ [destNs ++ "/*"] } } ns) ↔
                d ∈ seenOf st ns := by
              simp only [seenOf, lookupKV_upsertKV_self, Option.getD_some, List.mem_append,
                List.mem_singleton]
              constructor
              · rintro (hin | hin)
                · exact hin
                · exact absurd hin.symm hdd
              · exact Or.inl
            have hcnt :
                (sHostsOf { st with
                  seenNs := upsertKV st.seenNs ns (seenOf st ns ++ [destNs]),
                  sidecars := upsertKV st.sidecars ns
                    { sc with egressHosts := sc.egressHosts ++ [destNs ++ "/*"] } } ns).count
                  (d ++ "/*") = (sHostsOf st ns).count (d ++ "/*") := by
              rw [sHostsOf_upsert_self]
              simp only [count_append_star, hdd, if_false, Nat.add_zero]
              rw [hsH]
            constructor
            · intro hin
              refine ⟨by simp [lookupKV_upsertKV_self], ?_⟩
              rw [hcnt]
              exact (hI.1 (hmemiff.mp hin)).2
            · intro hn
              rw [hcnt]
              exact hI.2 (fun hin => hn (hmemiff.mpr hin))
        · have hns' : s ≠ ns := fun he => hns he.symm
          have h1 : seenOf { st with
              seenNs := upsertKV st.seenNs ns (seenOf st ns ++ [destNs]),
              sidecars := upsertKV st.sidecars ns
                { sc with egressHosts := sc.egressHosts ++ [destNs ++ "/*"] } } s =
              seenOf st s := by
            simp [seenOf, lookupKV_upsertKV_ne _ _ hns']
          have h2 := sHostsOf_upsert_ne st
            (upsertKV st.seenNs ns (seenOf st ns ++ [destNs]))
            { sc with egressHosts := sc.egressHosts ++ [destNs ++ "/*"] } hns'
          have h3 : lookupKV (upsertKV st.sidecars ns
              { sc with egressHosts := sc.egressHosts ++ [destNs ++ "/*"] }) s =
              lookupKV st.sidecars s := lookupKV_upsertKV_ne _ _ hns'
          constructor
          · intro hin
            rw [h1] at hin
            refine ⟨?_, ?_⟩
            · simp only [h3]
              exact (hI.1 hin).1
            · rw [h2]
              exact (hI.1 hin).2
          · intro hn
            rw [h1] at hn
            rw [h2]
            exact hI.2 hn

theorem directMerge_InvB {s d g ns : String} {tgts : List String} {st st' : GenState}
    (h : directMerge ns tgts st = .ok st') (hI : InvB s d g st)
    (hside : ns ≠ s ∨ d ∉ tgts) : InvB s d g st' := by
  have hts : st'.trafficSettings = st.trafficSettings := (directMerge_frame h).1
  have htH : ∀ k, tHostsOf st' k = tHostsOf st k := fun k => by simp [tHostsOf, hts]
  have hmem : d ∈ seenOf st' s ↔ d ∈ seenOf st s := by
    constructor
    · intro hin
      rcases hside with hns | hd
      · rwa [directMerge_seen_ne h (Ne.symm hns)] at hin
      · by_cases hsn : s = ns
        · subst hsn
          exact (directMerge_seen_from h hin).resolve_right hd
        · rwa [directMerge_seen_ne h hsn] at hin
    · exact directMerge_seen_mono h
  constructor
  · intro k
    rw [htH k]
    exact hI.1 k
  · intro hin
    rw [hmem] at hin
    refine ⟨?_, ?_⟩
    · rw [hts]
      exact (hI.2 hin).1
    · rw [htH]
      exact (hI.2 hin).2

theorem bridgedMerge_InvD {s d gfqn ns : String} {tgts : List String} {st st' : GenState}
    (h : bridgedMerge gfqn ns tgts st = .ok st') (hI : InvD s d st)
    (hside : ns ≠ s ∨ d ∉ tgts) : InvD s d st' := by
  have hsc : st'.sidecars = st.sidecars := (bridgedMerge_frame h).1
  have hsH : ∀ k, sHostsOf st' k = sHostsOf st k := fun k => by simp [sHostsOf, hsc]
  have hmem : d ∈ seenOf st' s ↔ d ∈ seenOf st s := by
    constructor
    · intro hin
      rcases hside with hns | hd
      · rwa [bridgedMerge_seen_ne h (Ne.symm hns)] at hin
      · by_cases hsn : s = ns
        · subst hsn
          exact (bridgedMerge_seen_from h hin).resolve_right hd
        · rwa [bridgedMerge_seen_ne h hsn] at hin
    · exact bridgedMerge_seen_mono h
  constructor
  · intro hin
    rw [hmem] at hin
    refine ⟨?_, ?_⟩
    · rw [hsc]
      exact (hI.1 hin).1
    · rw [hsH]
      exact (hI.1 hin).2
  · intro hn
    rw [hmem] at hn
    rw [hsH]
    exact hI.2 hn

theorem bridgedMerge_InvB {s d g gfqn ns : String} {tgts : List String} {st st' : GenState}
    (h : bridgedMerge gfqn ns tgts st = .ok st') (hI : InvB s d g st)
    (hside : gfqn = g ∨ ns ≠ s ∨ d ∉ tgts) : InvB s d g st' := by
  induction tgts generalizing st with
  | nil =>
    simp only [bridgedMerge, Except.ok.injEq] at h
    subst h
    exact hI
  | cons destNs rest ih =>
    have hside' : gfqn = g ∨ ns ≠ s ∨ d ∉ rest := by
      rcases hside with hgg | hns | hd
      · exact Or.inl hgg
      · exact Or.inr (Or.inl hns)
      · exact Or.inr (Or.inr (fun hin => hd (List.mem_cons_of_mem _ hin)))
    simp only [bridgedMerge] at h
    split at h
    · exact ih h hI hside'
    · next hmem =>
      split at h
      · exact absurd h (by simp)
      · next ts hts =>
        split at h
        · next hc =>
          refine ih h ?_ hside'
          constructor
          · intro k
            have hk : tHostsOf { st with
                seenNs := upsertKV st.seenNs ns (seenOf st ns ++ [destNs]) } k =
                tHostsOf st k := by simp [tHostsOf]
            rw [hk]
            exact hI.1 k
          · intro hin
            have htr : ∀ k, tHostsOf { st with
                seenNs := upsertKV st.seenNs ns (seenOf st ns ++ [destNs]) } k =
                tHostsOf st k := fun k => by simp [tHostsOf]
            have hlk : lookupKV ({ st with
                seenNs := upsertKV st.seenNs ns (seenOf st ns ++ [destNs]) } :
                GenState).trafficSettings g = lookupKV st.trafficSettings g := rfl
            by_cases hsn : s = ns
            · subst hsn
              have hin' : d ∈ seenOf st s ∨ d = destNs := by
                have : d ∈ seenOf st s ++ [destNs] := by
                  simpa [seenOf, lookupKV_upsertKV_self] using hin
                rcases List.mem_append.mp this with hin' | hin'
                · exact Or.inl hin'
                · exact Or.inr (List.mem_singleton.mp hin')
              rcases hin' with hin' | hin'
              · rw [hlk, htr]
                exact hI.2 hin'
              · subst hin'
                have hgg : gfqn = g := by
                  rcases hside with hgg | hns | hd
                  · exact hgg
                  · exact absurd rfl hns
                  · exact absurd (List.mem_cons_self _ _) hd
                subst hgg
                refine ⟨by rw [hlk, hts]; rfl, ?_⟩
                rw [htr]
                have hth : tHostsOf st gfqn = reachHosts ts := by
                  simp [tHostsOf, hts]
                have hle := hI.1 gfqn
                have hne : (tHostsOf st gfqn).count (d ++ "/*") ≠ 0 := by
                  rw [hth]
                  intro h0
                  exact absurd hc (List.count_eq_zero.mp h0)
                omega
            · have hseq : seenOf { st with
                  seenNs := upsertKV st.seenNs ns (seenOf st ns ++ [destNs]) } s =
                  seenOf st s := by
                simp [seenOf, lookupKV_upsertKV_ne _ _ hsn]
              rw [hseq] at hin
              rw [hlk, htr]
              exact hI.2 hin
        · next hnc =>
          split at h
          · exact absurd h (by simp)
          · next r hr =>
            refine ih h ?_ hside'
            have hth : tHostsOf st gfqn = r.hosts := by
              simp [tHostsOf, hts, reachHosts, hr]
            have hnc' : d ++ "/*" ∈ reachHosts ts → destNs ≠ d := by
              intro hmem' heq
              subst heq
              exact hnc hmem'
            have hncr : destNs ++ "/*" ∉ r.hosts := by
              intro hmem'
              apply hnc
              simp [reachHosts, hr, hmem']
            constructor
            · intro k
              by_cases hkg : k = gfqn
              · subst hkg
                rw [tHostsOf_upsert_self]
                simp only [reachHosts, count_append_star]
                by_cases hdd : destNs = d
                · subst hdd
                  have h0 : r.hosts.count (destNs ++ "/*") = 0 :=
                    List.count_eq_zero.mpr hncr
                  simp [h0]
                · have := hI.1 k
                  rw [hth] at this
                  simpa [hdd] using this
              · rw [tHostsOf_upsert_ne _ _ _ hkg]
                exact hI.1 k
            · intro hin
              have hseen : d ∈ seenOf st s ∨ (s = ns ∧ d = destNs) := by
                by_cases hsn : s = ns
                · subst hsn
                  have : d ∈ seenOf st s ++ [destNs] := by
                    simpa [seenOf, lookupKV_upsertKV_self] using hin
                  rcases List.mem_append.mp this with hin' | hin'
                  · exact Or.inl hin'
                  · exact Or.inr ⟨rfl, List.mem_singleton.mp hin'⟩
                · left
                  have hin2 := hin
                  simp only [seenOf, lookupKV_upsertKV_ne _ _ hsn] at hin2
                  simpa [seenOf] using hin2
              rcases hseen with hin' | ⟨hsn, hdd⟩
              · have hold := hI.2 hin'
                by_cases hgg : g = gfqn
                · subst hgg
                  refine ⟨by simp [lookupKV_upsertKV_self], ?_⟩
                  rw [tHostsOf_upsert_self]
                  simp only [reachHosts, count_append_star]
                  by_cases hdd : destNs = d
                  · subst hdd
                    have h0 : r.hosts.count (destNs ++ "/*") = 0 :=
                      List.count_eq_zero.mpr hncr
                    rw [hth] at hold
                    omega
                  · rw [hth] at hold
                    simpa [hdd] using hold.2
                · refine ⟨?_, ?_⟩
                  · simpa [lookupKV_upsertKV_ne _ _ hgg] using hold.1
                  · rw [tHostsOf_upsert_ne _ _ _ hgg]
                    exact hold.2
              · subst hsn
                subst hdd
                have hgg : gfqn = g := by
                  rcases hside with hgg | hns | hd
                  · exact hgg
                  · exact absurd rfl hns
                  · exact absurd (List.mem_cons_self _ _) hd
                subst hgg
                refine ⟨by simp [lookupKV_upsertKV_self], ?_⟩
                rw [tHostsOf_upsert_self]
                simp only [reachHosts, count_append_star]
                have h0 : r.hosts.count (d ++ "/*") = 0 := List.count_eq_zero.mpr hncr
                simp [h0]

/-- Once the monitored destination is seen for the merge's source namespace,
`directMerge` leaves every sidecar host count for it unchanged. -/
theorem directMerge_count {d ns : String} {tgts : List String} {st st' : GenState}
    (h : directMerge ns tgts st = .ok st') (hd : d ∈ seenOf st ns) :
    ∀ k, (sHostsOf st' k).count (d ++ "/*") = (sHostsOf st k).count (d ++ "/*") := by
  induction tgts generalizing st with
  | nil =>
    simp only [directMerge, Except.ok.injEq] at h
    subst h
    intro k
    rfl
  | cons destNs rest ih =>
    simp only [directMerge] at h
    split at h
    · exact ih h hd
    · next hmem =>
      split at h
      · exact absurd h (by simp)
      · next sc hsc =>
        have hdd : destNs ≠ d := fun he => hmem (he ▸ hd)
        have hd' : d ∈ seenOf { st with
            seenNs := upsertKV st.seenNs ns (seenOf st ns ++ [destNs]),
            sidecars := upsertKV st.sidecars ns
              { sc with egressHosts := sc.egressHosts ++ [destNs ++ "/*"] } } ns := by
          simp only [seenOf, lookupKV_upsertKV_self, Option.getD_some]
          exact List.mem_append_left _ hd
        intro k
        rw [ih h hd' k]
        by_cases hkn : k = ns
        · subst hkn
          rw [sHostsOf_upsert_self]
          simp only [count_append_star, hdd, if_false, Nat.add_zero]
          simp [sHostsOf, hsc]
        · rw [sHostsOf_upsert_ne _ _ _ hkn]

/-- Once the monitored destination is seen for the merge's source namespace,
`bridgedMerge` leaves every traffic-setting host count for it unchanged. -/
theorem bridgedMerge_count {d gfqn ns : String} {tgts : List String} {st st' : GenState}
    (h : bridgedMerge gfqn ns tgts st = .ok st') (hd : d ∈ seenOf st ns) :
    ∀ k, (tHostsOf st' k).count (d ++ "/*") = (tHostsOf st k).count (d ++ "/*") := by
  induction tgts generalizing st with
  | nil =>
    simp only [bridgedMerge, Except.ok.injEq] at h
    subst h
    intro k
    rfl
  | cons destNs rest ih =>
    simp only [bridgedMerge] at h
    split at h
    · exact ih h hd
    · next hmem =>
      have hdd : destNs ≠ d := fun he => hmem (he ▸ hd)
      split at h
      · exact absurd h (by simp)
      · next ts hts =>
        split at h
        · next hc =>
          have hd' : d ∈ seenOf { st with
              seenNs := upsertKV st.seenNs ns (seenOf st ns ++ [destNs]) } ns := by
            simp only [seenOf, lookupKV_upsertKV_self, Option.getD_some]
            exact List.mem_append_left _ hd
          intro k
          rw [ih h hd' k]
          simp [tHostsOf]
        · next hnc =>
          split at h
          · exact absurd h (by simp)
          · next r hr =>
            intro k
            refine Eq.trans (ih h ?_ k) ?_
            · simp only [seenOf, lookupKV_upsertKV_self, Option.getD_some]
              exact List.mem_append_left _ hd
            · by_cases hkg : k = gfqn
              · subst hkg
                rw [tHostsOf_upsert_self]
                simp only [reachHosts, count_append_star, hdd, if_false, Nat.add_zero]
                simp [tHostsOf, hts, reachHosts, hr]
              · rw [tHostsOf_upsert_ne _ _ _ hkg]

/-! ## Outer-loop lemmas: generateDirectModeSidecars -/

theorem seenOf_congr {st₁ st₂ : GenState} (h : st₂.seenNs = st₁.seenNs) (k : String) :
    seenOf st₂ k = seenOf st₁ k := by
  simp [seenOf, h]

theorem sHostsOf_congr {st₁ st₂ : GenState} (h : st₂.sidecars = st₁.sidecars) (k : String) :
    sHostsOf st₂ k = sHostsOf st₁ k := by
  simp [sHostsOf, h]

theorem tHostsOf_congr {st₁ st₂ : GenState}
    (h : st₂.trafficSettings = st₁.trafficSettings) (k : String) :
    tHostsOf st₂ k = tHostsOf st₁ k := by
  simp [tHostsOf, h]

theorem lookupKV_ensureSeen_getD (m : List (String × List String)) (ns k : String) :
    (lookupKV (ensureSeen m ns) k).getD [] = (lookupKV m k).getD [] := by
  unfold ensureSeen
  cases hl : lookupKV m ns with
  | some l => rfl
  | none =>
    by_cases h : k = ns
    · subst h
      simp [lookupKV_upsertKV_self, hl]
    · simp [lookupKV_upsertKV_ne _ _ h]

/-- `InvD` depends only on membership of the pair in the seen map and on the
sidecar map. -/
theorem InvD_of_eq {s d : String} {st₁ st₂ : GenState}
    (hseen : d ∈ seenOf st₂ s ↔ d ∈ seenOf st₁ s)
    (hlk : lookupKV st₂.sidecars s = lookupKV st₁.sidecars s)
    (hI : InvD s d st₁) : InvD s d st₂ := by
  have hH : sHostsOf st₂ s = sHostsOf st₁ s := by
    simp [sHostsOf, hlk]
  constructor
  · intro hin
    rw [hseen] at hin
    rw [hlk, hH]
    exact hI.1 hin
  · intro hn
    rw [hseen] at hn
    rw [hH]
    exact hI.2 hn

/-- `InvB` depends only on membership of the pair in the seen map and on the
traffic-setting map. -/
theorem InvB_of_eq {s d g : String} {st₁ st₂ : GenState}
    (hseen : d ∈ seenOf st₂ s ↔ d ∈ seenOf st₁ s)
    (hts : st₂.trafficSettings = st₁.trafficSettings)
    (hI : InvB s d g st₁) : InvB s d g st₂ := by
  have hH : ∀ k, tHostsOf st₂ k = tHostsOf st₁ k := tHostsOf_congr hts
  constructor
  · intro k
    rw [hH k]
    exact hI.1 k
  · intro hin
    rw [hseen] at hin
    rw [hts, hH]
    exact hI.2 hin

theorem gds_frame {ann : List (String × String)} {tgts srcs : List String}
    {st st' : GenState}
    (h : generateDirectModeSidecars ann tgts srcs st = .ok st') :
    st'.trafficSettings = st.trafficSettings ∧ st'.trafficMeta = st.trafficMeta ∧
      st'.fetched = st.fetched := by
  induction srcs generalizing st with
  | nil =>
    simp only [generateDirectModeSidecars, Except.ok.injEq] at h
    subst h
    exact ⟨rfl, rfl, rfl⟩
  | cons ns rest ih =>
    simp only [generateDirectModeSidecars] at h
    cases hlk : lookupKV st.sidecars ns with
    | some sc0 =>
      simp only [hlk] at h
      split at h
      · exact absurd h (by simp)
      · next stX heq =>
        have h1 := directMerge_frame heq
        have h2 := ih h
        exact ⟨h2.1.trans h1.1, h2.2.1.trans h1.2.1, h2.2.2.trans h1.2.2⟩
    | none =>
      simp only [hlk] at h
      split at h
      · exact absurd h (by simp)
      · next stX heq =>
        have h1 := directMerge_frame heq
        have h2 := ih h
        exact ⟨h2.1.trans h1.1, h2.2.1.trans h1.2.1, h2.2.2.trans h1.2.2⟩

theorem gds_seen_mono {ann : List (String × String)} {tgts srcs : List String}
    {st st' : GenState}
    (h : generateDirectModeSidecars ann tgts srcs st = .ok st') {k x : String}
    (hx : x ∈ seenOf st k) : x ∈ seenOf st' k := by
  induction srcs generalizing st with
  | nil =>
    simp only [generateDirectModeSidecars, Except.ok.injEq] at h
    subst h
    exact hx
  | cons ns rest ih =>
    simp only [generateDirectModeSidecars] at h
    have hx' : ∀ {stmid : GenState}, stmid.seenNs = ensureSeen st.seenNs ns →
        x ∈ seenOf stmid k := by
      intro stmid hs
      have : seenOf stmid k = seenOf st k := by
        simp [seenOf, hs, lookupKV_ensureSeen_getD]
      rwa [this]
    cases hlk : lookupKV st.sidecars ns with
    | some sc0 =>
      simp only [hlk] at h
      split at h
      · exact absurd h (by simp)
      · next stX heq =>
        exact ih h (directMerge_seen_mono heq (hx' rfl))
    | none =>
      simp only [hlk] at h
      split at h
      · exact absurd h (by simp)
      · next stX heq =>
        exact ih h (directMerge_seen_mono heq (hx' rfl))

theorem gds_seen_pair {s d : String} {ann : List (String × String)}
    {tgts srcs : List String} {st st' : GenState}
    (h : generateDirectModeSidecars ann tgts srcs st = .ok st')
    (hside : s ∉ srcs ∨ d ∉ tgts) :
    (d ∈ seenOf st' s ↔ d ∈ seenOf st s) := by
  induction srcs generalizing st with
  | nil =>
    simp only [generateDirectModeSidecars, Except.ok.injEq] at h
    subst h
    rfl
  | cons ns rest ih =>
    have hside' : s ∉ rest ∨ d ∉ tgts := by
      rcases hside with hs | hd
      · exact Or.inl (fun hin => hs (List.mem_cons_of_mem _ hin))
      · exact Or.inr hd
    have hns : ns ≠ s ∨ d ∉ tgts := by
      rcases hside with hs | hd
      · exact Or.inl (fun he => hs (he ▸ List.mem_cons_self _ _))
      · exact Or.inr hd
    simp only [generateDirectModeSidecars] at h
    have hkey : ∀ {stmid stX : GenState}, stmid.seenNs = ensureSeen st.seenNs ns →
        directMerge ns tgts stmid = .ok stX →
        (d ∈ seenOf stX s ↔ d ∈ seenOf st s) := by
      intro stmid stX hs heq
      have hmid : seenOf stmid s = seenOf st s := by
        simp [seenOf, hs, lookupKV_ensureSeen_getD]
      constructor
      · intro hin
        rcases hns with hn | hd
        · rw [directMerge_seen_ne heq (Ne.symm hn), hmid] at hin
          exact hin
        · by_cases hsn : s = ns
          · subst hsn
            rw [← hmid]
            exact (directMerge_seen_from heq hin).resolve_right hd
          · rw [directMerge_seen_ne heq hsn, hmid] at hin
            exact hin
      · intro hin
        exact directMerge_seen_mono heq (hmid ▸ hin)
    cases hlk : lookupKV st.sidecars ns with
    | some sc0 =>
      simp only [hlk] at h
      split at h
      · exact absurd h (by simp)
      · next stX heq =>
        exact (ih h hside').trans (hkey rfl heq)
    | none =>
      simp only [hlk] at h
      split at h
      · exact absurd h (by simp)
      · next stX heq =>
        exact (ih h hside').trans (hkey rfl heq)

theorem gds_marks {s d : String} {ann : List (String × String)}
    {tgts srcs : List String} {st st' : GenState}
    (h : generateDirectModeSidecars ann tgts srcs st = .ok st')
    (hs : s ∈ srcs) (hd : d ∈ tgts) : d ∈ seenOf st' s := by
  induction srcs generalizing st with
  | nil => exact absurd hs (List.not_mem_nil s)
  | cons ns rest ih =>
    simp only [generateDirectModeSidecars] at h
    rcases List.mem_cons.mp hs with hsn | hsn
    · subst hsn
      cases hlk : lookupKV st.sidecars s with
      | some sc0 =>
        simp only [hlk] at h
        split at h
        · exact absurd h (by simp)
        · next stX heq => exact gds_seen_mono h (directMerge_marks heq hd)
      | none =>
        simp only [hlk] at h
        split at h
        · exact absurd h (by simp)
        · next stX heq => exact gds_seen_mono h (directMerge_marks heq hd)
    · cases hlk : lookupKV st.sidecars ns with
      | some sc0 =>
        simp only [hlk] at h
        split at h
        · exact absurd h (by simp)
        · next stX heq => exact ih h hsn
      | none =>
        simp only [hlk] at h
        split at h
        · exact absurd h (by simp)
        · next stX heq => exact ih h hsn

theorem gds_InvD {s d : String} {ann : List (String × String)}
    {tgts srcs : List String} {st st' : GenState}
    (h : generateDirectModeSidecars ann tgts srcs st = .ok st')
    (hI : InvD s d st)
    (hd1 : d ≠ "istio-system") (hd2 : d ≠ "xcp-multicluster") : InvD s d st' := by
  induction srcs generalizing st with
  | nil =>
    simp only [generateDirectModeSidecars, Except.ok.injEq] at h
    subst h
    exact hI
  | cons ns rest ih =>
    simp only [generateDirectModeSidecars] at h
    cases hlk : lookupKV st.sidecars ns with
    | some sc0 =>
      simp only [hlk] at h
      split at h
      · exact absurd h (by simp)
      · next stX heq =>
        refine ih h (directMerge_InvD heq ?_)
        refine @InvD_of_eq s d st _ ?_ rfl hI
        constructor
        · intro hin
          simpa [seenOf, lookupKV_ensureSeen_getD] using hin
        · intro hin
          simpa [seenOf, lookupKV_ensureSeen_getD] using hin
    | none =>
      simp only [hlk] at h
      split at h
      · exact absurd h (by simp)
      · next stX heq =>
        refine ih h (directMerge_InvD heq ?_)
        have hseen : ∀ x, (x ∈ seenOf { st with
            seenNs := ensureSeen st.seenNs ns,
            sidecars := upsertKV st.sidecars ns
              ⟨"reachability-sidecar", ns, ann, baseHosts⟩ } s) ↔ x ∈ seenOf st s := by
          intro x
          simp [seenOf, lookupKV_ensureSeen_getD]
        by_cases hns : ns = s
        · subst hns
          have hnotin : d ∉ seenOf st ns := by
            intro hin
            have := (hI.1 hin).1
            rw [hlk] at this
            simp at this
          have hcnt : sHostsOf { st with
              seenNs := ensureSeen st.seenNs ns,
              sidecars := upsertKV st.sidecars ns
                ⟨"reachability-sidecar", ns, ann, baseHosts⟩ } ns = baseHosts := by
            simp [sHostsOf, lookupKV_upsertKV_self]
          constructor
          · intro hin
            exact absurd ((hseen d).mp hin) hnotin
          · intro _
            rw [hcnt]
            exact count_baseHosts hd1 hd2
        · refine InvD_of_eq (hseen d) ?_ hI
          simp [lookupKV_upsertKV_ne _ _ (fun he => hns he.symm)]

/-- Every sidecar in the generation state has the two base hosts as a prefix
of its egress host list. -/
def SidecarsSeeded (st : GenState) : Prop :=
  ∀ k sc, lookupKV st.sidecars k = some sc →
    ∃ ext, sc.egressHosts = baseHosts ++ ext

/-- Every traffic setting in the state whose group FQN the remote collaborator
answers with "no setting" (i.e. that was necessarily synthesized locally)
has the two base hosts as a prefix of its reachability host list. -/
def SettingsSeeded (fetch : String → Except String (Option TrafficSetting))
    (st : GenState) : Prop :=
  ∀ k ts, lookupKV st.trafficSettings k = some ts → fetch k = .ok none →
    ∃ ext, reachHosts ts = baseHosts ++ ext

theorem directMerge_seeded {ns : String} {tgts : List String} {st st' : GenState}
    (h : directMerge ns tgts st = .ok st') (hS : SidecarsSeeded st) :
    SidecarsSeeded st' := by
  intro k sc' hk
  rcases directMerge_hosts h hk with ⟨sc, ext, hm, hho, _, _, _⟩
  rcases hS k sc hm with ⟨ext0, he0⟩
  exact ⟨ext0 ++ ext, by rw [hho, he0, List.append_assoc]⟩

theorem bridgedMerge_seeded {fetch : String → Except String (Option TrafficSetting)}
    {gfqn ns : String} {tgts : List String} {st st' : GenState}
    (h : bridgedMerge gfqn ns tgts st = .ok st') (hS : SettingsSeeded fetch st) :
    SettingsSeeded fetch st' := by
  intro k ts' hk hf
  rcases bridgedMerge_settings h hk with ⟨ts, ext, hm, hho, _⟩
  rcases hS k ts hm hf with ⟨ext0, he0⟩
  exact ⟨ext0 ++ ext, by rw [hho, he0, List.append_assoc]⟩

theorem gds_seeded {ann : List (String × String)} {tgts srcs : List String}
    {st st' : GenState}
    (h : generateDirectModeSidecars ann tgts srcs st = .ok st')
    (hS : SidecarsSeeded st) : SidecarsSeeded st' := by
  induction srcs generalizing st with
  | nil =>
    simp only [generateDirectModeSidecars, Except.ok.injEq] at h
    subst h
    exact hS
  | cons ns rest ih =>
    simp only [generateDirectModeSidecars] at h
    cases hlk : lookupKV st.sidecars ns with
    | some sc0 =>
      simp only [hlk] at h
      split at h
      · exact absurd h (by simp)
      · next stX heq => exact ih h (directMerge_seeded heq hS)
    | none =>
      simp only [hlk] at h
      split at h
      · exact absurd h (by simp)
      · next stX heq =>
        refine ih h (directMerge_seeded heq ?_)
        intro k sc hk
        by_cases hkn : k = ns
        · subst hkn
          rw [show lookupKV (upsertKV st.sidecars k
              ⟨"reachability-sidecar", k, ann, baseHosts⟩) k =
              some ⟨"reachability-sidecar", k, ann, baseHosts⟩ from
              lookupKV_upsertKV_self _ _ _] at hk
          cases hk
          exact ⟨[], by simp⟩
        · rw [lookupKV_upsertKV_ne _ _ hkn] at hk
          exact hS k sc hk

theorem gds_count {d : String} {ann : List (String × String)}
    {tgts srcs : List String} {st st' : GenState}
    (h : generateDirectModeSidecars ann tgts srcs st = .ok st')
    (hall : ∀ ns ∈ srcs, d ∈ seenOf st ns)
    (hd1 : d ≠ "istio-system") (hd2 : d ≠ "xcp-multicluster") :
    ∀ k, (sHostsOf st' k).count (d ++ "/*") = (sHostsOf st k).count (d ++ "/*") := by
  induction srcs generalizing st with
  | nil =>
    simp only [generateDirectModeSidecars, Except.ok.injEq] at h
    subst h
    intro k
    rfl
  | cons ns rest ih =>
    have hdns := hall ns (List.mem_cons_self _ _)
    simp only [generateDirectModeSidecars] at h
    cases hlk : lookupKV st.sidecars ns with
    | some sc0 =>
      simp only [hlk] at h
      split at h
      · exact absurd h (by simp)
      · next stX heq =>
        have hmid : d ∈ seenOf { st with seenNs := ensureSeen st.seenNs ns } ns := by
          simpa [seenOf, lookupKV_ensureSeen_getD] using hdns
        have hallX : ∀ x ∈ rest, d ∈ seenOf stX x := fun x hx =>
          directMerge_seen_mono heq
            (by simpa [seenOf, lookupKV_ensureSeen_getD] using
              hall x (List.mem_cons_of_mem _ hx))
        intro k
        rw [ih h hallX k, directMerge_count heq hmid k]
        simp [sHostsOf]
    | none =>
      simp only [hlk] at h
      split at h
      · exact absurd h (by simp)
      · next stX heq =>
        have hmid : d ∈ seenOf { st with
            seenNs := ensureSeen st.seenNs ns,
            sidecars := upsertKV st.sidecars ns
              ⟨"reachability-sidecar", ns, ann, baseHosts⟩ } ns := by
          simpa [seenOf, lookupKV_ensureSeen_getD] using hdns
        have hallX : ∀ x ∈ rest, d ∈ seenOf stX x := fun x hx =>
          directMerge_seen_mono heq
            (by simpa [seenOf, lookupKV_ensureSeen_getD] using
              hall x (List.mem_cons_of_mem _ hx))
        intro k
        rw [ih h hallX k, directMerge_count heq hmid k]
        by_cases hkn : k = ns
        · subst hkn
          have h1 : sHostsOf { st with
              seenNs := ensureSeen st.seenNs k,
              sidecars := upsertKV st.sidecars k
                ⟨"reachability-sidecar", k, ann, baseHosts⟩ } k = baseHosts := by
            simp [sHostsOf, lookupKV_upsertKV_self]
          have h2 : sHostsOf st k = [] := by
            simp [sHostsOf, hlk]
          rw [h1, h2, count_baseHosts hd1 hd2]
          simp
        · have h1 : sHostsOf { st with
              seenNs := ensureSeen st.seenNs ns,
              sidecars := upsertKV st.sidecars ns
                ⟨"reachability-sidecar", ns, ann, baseHosts⟩ } k = sHostsOf st k := by
            simp [sHostsOf, lookupKV_upsertKV_ne _ _ hkn]
          rw [h1]

/-! ## Outer-loop lemmas: generateBridgedModeTrafficSettings -/

theorem bridgedMerge_settings_isSome {gfqn ns : String} {tgts : List String}
    {st st' : GenState} (h : bridgedMerge gfqn ns tgts st = .ok st') {k : String}
    (hk : (lookupKV st.trafficSettings k).isSome) :
    (lookupKV st'.trafficSettings k).isSome := by
  induction tgts generalizing st with
  | nil =>
    simp only [bridgedMerge, Except.ok.injEq] at h
    subst h
    exact hk
  | cons destNs rest ih =>
    simp only [bridgedMerge] at h
    split at h
    · exact ih h hk
    · split at h
      · exact absurd h (by simp)
      · next ts hts =>
        split at h
        · exact ih h (by simpa using hk)
        · split at h
          · exact absurd h (by simp)
          · next r hr =>
            apply ih h
            by_cases hkg : k = gfqn
            · subst hkg
              simp [lookupKV_upsertKV_self]
            · simpa [lookupKV_upsertKV_ne _ _ hkg] using hk

theorem gbs_frame {fetch : String → Except String (Option TrafficSetting)}
    {gfqn : String} {tgts : List String} {meta : ObjectMeta} {srcs : List String}
    {st st' : GenState}
    (h : generateBridgedModeTrafficSettings fetch gfqn tgts meta srcs st = .ok st') :
    st'.sidecars = st.sidecars ∧ st'.trafficMeta = st.trafficMeta := by
  induction srcs generalizing st with
  | nil =>
    simp only [generateBridgedModeTrafficSettings, Except.ok.injEq] at h
    subst h
    exact ⟨rfl, rfl⟩
  | cons ns rest ih =>
    simp only [generateBridgedModeTrafficSettings] at h
    cases hlk : lookupKV st.trafficSettings gfqn with
    | some ts0 =>
      simp only [hlk] at h
      split at h
      · exact absurd h (by simp)
      · next stX heq =>
        have h1 := bridgedMerge_frame heq
        have h2 := ih h
        exact ⟨h2.1.trans h1.1, h2.2.trans h1.2.1⟩
    | none =>
      simp only [hlk] at h
      cases hf : fetch gfqn with
      | error e =>
        simp only [hf] at h
        exact absurd h (by simp)
      | ok fopt =>
        simp only [hf] at h
        cases fopt with
        | some ts0 =>
          simp only [] at h
          split at h
          · exact absurd h (by simp)
          · next stX heq =>
            have h1 := bridgedMerge_frame heq
            have h2 := ih h
            exact ⟨h2.1.trans h1.1, h2.2.trans h1.2.1⟩
        | none =>
          simp only [] at h
          split at h
          · exact absurd h (by simp)
          · next stX heq =>
            have h1 := bridgedMerge_frame heq
            have h2 := ih h
            exact ⟨h2.1.trans h1.1, h2.2.trans h1.2.1⟩

theorem gbs_seen_mono {fetch : String → Except String (Option TrafficSetting)}
    {gfqn : String} {tgts : List String} {meta : ObjectMeta} {srcs : List String}
    {st st' : GenState}
    (h : generateBridgedModeTrafficSettings fetch gfqn tgts meta srcs st = .ok st')
    {k x : String} (hx : x ∈ seenOf st k) : x ∈ seenOf st' k := by
  induction srcs generalizing st with
  | nil =>
    simp only [generateBridgedModeTrafficSettings, Except.ok.injEq] at h
    subst h
    exact hx
  | cons ns rest ih =>
    simp only [generateBridgedModeTrafficSettings] at h
    have hx' : ∀ {stmid : GenState}, stmid.seenNs = ensureSeen st.seenNs ns →
        x ∈ seenOf stmid k := by
      intro stmid hs
      have : seenOf stmid k = seenOf st k := by
        simp [seenOf, hs, lookupKV_ensureSeen_getD]
      rwa [this]
    cases hlk : lookupKV st.trafficSettings gfqn with
    | some ts0 =>
      simp only [hlk] at h
      split at h
      · exact absurd h (by simp)
      · next stX heq => exact ih h (bridgedMerge_seen_mono heq (hx' rfl))
    | none =>
      simp only [hlk] at h
      cases hf : fetch gfqn with
      | error e =>
        simp only [hf] at h
        exact absurd h (by simp)
      | ok fopt =>
        simp only [hf] at h
        cases fopt with
        | some ts0 =>
          simp only [] at h
          split at h
          · exact absurd h (by simp)
          · next stX heq => exact ih h (bridgedMerge_seen_mono heq (hx' rfl))
        | none =>
          simp only [] at h
          split at h
          · exact absurd h (by simp)
          · next stX heq => exact ih h (bridgedMerge_seen_mono heq (hx' rfl))

theorem gbs_seen_pair {s d : String}
    {fetch : String → Except String (Option TrafficSetting)}
    {gfqn : String} {tgts : List String} {meta : ObjectMeta} {srcs : List String}
    {st st' : GenState}
    (h : generateBridgedModeTrafficSettings fetch gfqn tgts meta srcs st = .ok st')
    (hside : s ∉ srcs ∨ d ∉ tgts) :
    (d ∈ seenOf st' s ↔ d ∈ seenOf st s) := by
  induction srcs generalizing st with
  | nil =>
    simp only [generateBridgedModeTrafficSettings, Except.ok.injEq] at h
    subst h
    rfl
  | cons ns rest ih =>
    have hside' : s ∉ rest ∨ d ∉ tgts := by
      rcases hside with hs | hd
      · exact Or.inl (fun hin => hs (List.mem_cons_of_mem _ hin))
      · exact Or.inr hd
    have hns : ns ≠ s ∨ d ∉ tgts := by
      rcases hside with hs | hd
      · exact Or.inl (fun he => hs (he ▸ List.mem_cons_self _ _))
      · exact Or.inr hd
    simp only [generateBridgedModeTrafficSettings] at h
    have hkey : ∀ {stmid stX : GenState}, stmid.seenNs = ensureSeen st.seenNs ns →
        bridgedMerge gfqn ns tgts stmid = .ok stX →
        (d ∈ seenOf stX s ↔ d ∈ seenOf st s) := by
      intro stmid stX hs heq
      have hmid : seenOf stmid s = seenOf st s := by
        simp [seenOf, hs, lookupKV_ensureSeen_getD]
      constructor
      · intro hin
        rcases hns with hn | hd
        · rw [bridgedMerge_seen_ne heq (Ne.symm hn), hmid] at hin
          exact hin
        · by_cases hsn : s = ns
          · subst hsn
            rw [← hmid]
            exact (bridgedMerge_seen_from heq hin).resolve_right hd
          · rw [bridgedMerge_seen_ne heq hsn, hmid] at hin
            exact hin
      · intro hin
        exact bridgedMerge_seen_mono heq (hmid ▸ hin)
    cases hlk : lookupKV st.trafficSettings gfqn with
    | some ts0 =>
      simp only [hlk] at h
      split at h
      · exact absurd h (by simp)
      · next stX heq => exact (ih h hside').trans (hkey rfl heq)
    | none =>
      simp only [hlk] at h
      cases hf : fetch gfqn with
      | error e =>
        simp only [hf] at h
        exact absurd h (by simp)
      | ok fopt =>
        simp only [hf] at h
        cases fopt with
        | some ts0 =>
          simp only [] at h
          split at h
          · exact absurd h (by simp)
          · next stX heq => exact (ih h hside').trans (hkey rfl heq)
        | none =>
          simp only [] at h
          split at h
          · exact absurd h (by simp)
          · next stX heq => exact (ih h hside').trans (hkey rfl heq)

theorem gbs_marks {s d : String}
    {fetch : String → Except String (Option TrafficSetting)}
    {gfqn : String} {tgts : List String} {meta : ObjectMeta} {srcs : List String}
    {st st' : GenState}
    (h : generateBridgedModeTrafficSettings fetch gfqn tgts meta srcs st = .ok st')
    (hs : s ∈ srcs) (hd : d ∈ tgts) : d ∈ seenOf st' s := by
  induction srcs generalizing st with
  | nil => exact absurd hs (List.not_mem_nil s)
  | cons ns rest ih =>
    simp only [generateBridgedModeTrafficSettings] at h
    rcases List.mem_cons.mp hs with hsn | hsn
    · subst hsn
      cases hlk : lookupKV st.trafficSettings gfqn with
      | some ts0 =>
        simp only [hlk] at h
        split at h
        · exact absurd h (by simp)
        · next stX heq => exact gbs_seen_mono h (bridgedMerge_marks heq hd)
      | none =>
        simp only [hlk] at h
        cases hf : fetch gfqn with
        | error e =>
          simp only [hf] at h
          exact absurd h (by simp)
        | ok fopt =>
          simp only [hf] at h
          cases fopt with
          | some ts0 =>
            simp only [] at h
            split at h
            · exact absurd h (by simp)
            · next stX heq => exact gbs_seen_mono h (bridgedMerge_marks heq hd)
          | none =>
            simp only [] at h
            split at h
            · exact absurd h (by simp)
            · next stX heq => exact gbs_seen_mono h (bridgedMerge_marks heq hd)
    · cases hlk : lookupKV st.trafficSettings gfqn with
      | some ts0 =>
        simp only [hlk] at h
        split at h
        · exact absurd h (by simp)
        · next stX heq => exact ih h hsn
      | none =>
        simp only [hlk] at h
        cases hf : fetch gfqn with
        | error e =>
          simp only [hf] at h
          exact absurd h (by simp)
        | ok fopt =>
          simp only [hf] at h
          cases fopt with
          | some ts0 =>
            simp only [] at h
            split at h
            · exact absurd h (by simp)
            · next stX heq => exact ih h hsn
          | none =>
            simp only [] at h
            split at h
            · exact absurd h (by simp)
            · next stX heq => exact ih h hsn

theorem gbs_InvD {s d : String}
    {fetch : String → Except String (Option TrafficSetting)}
    {gfqn : String} {tgts : List String} {meta : ObjectMeta} {srcs : List String}
    {st st' : GenState}
    (h : generateBridgedModeTrafficSettings fetch gfqn tgts meta srcs st = .ok st')
    (hI : InvD s d st) (hside : s ∉ srcs ∨ d ∉ tgts) : InvD s d st' :=
  InvD_of_eq (gbs_seen_pair h hside) (by rw [(gbs_frame h).1]) hI

theorem gds_InvB {s d g : String} {ann : List (String × String)}
    {tgts srcs : List String} {st st' : GenState}
    (h : generateDirectModeSidecars ann tgts srcs st = .ok st')
    (hI : InvB s d g st) (hside : s ∉ srcs ∨ d ∉ tgts) : InvB s d g st' :=
  InvB_of_eq (gds_seen_pair h hside) (gds_frame h).1 hI

/-- Transport of `SettingsSeeded` across inserting one setting. -/
theorem SettingsSeeded_upsert {fetch : String → Except String (Option TrafficSetting)}
    {st₂ st₁ : GenState} {gfqn : String} {sv : TrafficSetting}
    (hts : st₂.trafficSettings = upsertKV st₁.trafficSettings gfqn sv)
    (hS : SettingsSeeded fetch st₁)
    (hsv : fetch gfqn = .ok none → ∃ ext, reachHosts sv = baseHosts ++ ext) :
    SettingsSeeded fetch st₂ := by
  intro k ts hk hf
  rw [hts] at hk
  by_cases hkg : k = gfqn
  · subst hkg
    rw [lookupKV_upsertKV_self] at hk
    cases hk
    exact hsv hf
  · rw [lookupKV_upsertKV_ne _ _ hkg] at hk
    exact hS k ts hk hf

theorem gbs_InvB {s d g : String}
    {fetch : String → Except String (Option TrafficSetting)}
    {gfqn : String} {tgts : List String} {meta : ObjectMeta} {srcs : List String}
    {st st' : GenState}
    (h : generateBridgedModeTrafficSettings fetch gfqn tgts meta srcs st = .ok st')
    (hI : InvB s d g st)
    (hfetch : ∀ ts, fetch gfqn = .ok (some ts) → (reachHosts ts).count (d ++ "/*") ≤ 1)
    (hside : gfqn = g ∨ s ∉ srcs ∨ d ∉ tgts)
    (hd1 : d ≠ "istio-system") (hd2 : d ≠ "xcp-multicluster") : InvB s d g st' := by
  induction srcs generalizing st with
  | nil =>
    simp only [generateBridgedModeTrafficSettings, Except.ok.injEq] at h
    subst h
    exact hI
  | cons ns rest ih =>
    have hside' : gfqn = g ∨ s ∉ rest ∨ d ∉ tgts := by
      rcases hside with hgg | hs | hd
      · exact Or.inl hgg
      · exact Or.inr (Or.inl (fun hin => hs (List.mem_cons_of_mem _ hin)))
      · exact Or.inr (Or.inr hd)
    have hsideM : gfqn = g ∨ ns ≠ s ∨ d ∉ tgts := by
      rcases hside with hgg | hs | hd
      · exact Or.inl hgg
      · exact Or.inr (Or.inl (fun he => hs (he ▸ List.mem_cons_self _ _)))
      · exact Or.inr (Or.inr hd)
    simp only [generateBridgedModeTrafficSettings] at h
    have hImid : ∀ {stmid : GenState}, stmid.seenNs = ensureSeen st.seenNs ns →
        stmid.trafficSettings = st.trafficSettings → InvB s d g stmid := by
      intro stmid hsn hts
      refine InvB_of_eq ?_ hts hI
      have : seenOf stmid s = seenOf st s := by
        simp [seenOf, hsn, lookupKV_ensureSeen_getD]
      rw [this]
    cases hlk : lookupKV st.trafficSettings gfqn with
    | some ts0 =>
      simp only [hlk] at h
      split at h
      · exact absurd h (by simp)
      · next stX heq =>
        exact ih h (bridgedMerge_InvB heq (hImid rfl rfl) hsideM) hside'
    | none =>
      simp only [hlk] at h
      cases hf : fetch gfqn with
      | error e =>
        simp only [hf] at h
        exact absurd h (by simp)
      | ok fopt =>
        simp only [hf] at h
        have hkey : ∀ (sv : TrafficSetting),
            (reachHosts sv).count (d ++ "/*") ≤ 1 →
            ∀ {stX : GenState},
            bridgedMerge gfqn ns tgts { st with
              seenNs := ensureSeen st.seenNs ns,
              trafficSettings := upsertKV st.trafficSettings gfqn sv,
              fetched := st.fetched ++ [gfqn] } = .ok stX →
            generateBridgedModeTrafficSettings fetch gfqn tgts meta rest stX = .ok st' →
            InvB s d g st' := by
          intro sv hsv stX heq hrest
          refine ih hrest (bridgedMerge_InvB heq ?_ hsideM) hside'
          constructor
          · intro k
            by_cases hkg : k = gfqn
            · subst hkg
              simpa [tHostsOf, lookupKV_upsertKV_self] using hsv
            · simpa [tHostsOf, lookupKV_upsertKV_ne _ _ hkg] using hI.1 k
          · intro hin
            have hin' : d ∈ seenOf st s := by
              simpa [seenOf, lookupKV_ensureSeen_getD] using hin
            have hold := hI.2 hin'
            by_cases hgg : g = gfqn
            · subst hgg
              rw [hlk] at hold
              simp at hold
            · refine ⟨?_, ?_⟩
              · simpa [lookupKV_upsertKV_ne _ _ hgg] using hold.1
              · simpa [tHostsOf, lookupKV_upsertKV_ne _ _ hgg] using hold.2
        cases fopt with
        | some ts0 =>
          simp only [] at h
          split at h
          · exact absurd h (by simp)
          · next stX heq => exact hkey ts0 (hfetch ts0 hf) heq h
        | none =>
          simp only [] at h
          split at h
          · exact absurd h (by simp)
          · next stX heq =>
            refine hkey _ ?_ heq h
            simp [reachHosts, count_baseHosts hd1 hd2]

theorem gbs_seeded {fetch : String → Except String (Option TrafficSetting)}
    {gfqn : String} {tgts : List String} {meta : ObjectMeta} {srcs : List String}
    {st st' : GenState}
    (h : generateBridgedModeTrafficSettings fetch gfqn tgts meta srcs st = .ok st')
    (hS : SettingsSeeded fetch st) : SettingsSeeded fetch st' := by
  induction srcs generalizing st with
  | nil =>
    simp only [generateBridgedModeTrafficSettings, Except.ok.injEq] at h
    subst h
    exact hS
  | cons ns rest ih =>
    simp only [generateBridgedModeTrafficSettings] at h
    have hSmid : ∀ {stmid : GenState},
        stmid.trafficSettings = st.trafficSettings → SettingsSeeded fetch stmid := by
      intro stmid hts k ts hk hf
      rw [hts] at hk
      exact hS k ts hk hf
    cases hlk : lookupKV st.trafficSettings gfqn with
    | some ts0 =>
      simp only [hlk] at h
      split at h
      · exact absurd h (by simp)
      · next stX heq => exact ih h (bridgedMerge_seeded heq (hSmid rfl))
    | none =>
      simp only [hlk] at h
      cases hf : fetch gfqn with
      | error e =>
        simp only [hf] at h
        exact absurd h (by simp)
      | ok fopt =>
        simp only [hf] at h
        cases fopt with
        | some ts0 =>
          simp only [] at h
          split at h
          · exact absurd h (by simp)
          · next stX heq =>
            refine ih h (bridgedMerge_seeded heq
              (@SettingsSeeded_upsert fetch _ st gfqn _ rfl hS ?_))
            intro hfk
            rw [hfk] at hf
            simp at hf
        | none =>
          simp only [] at h
          split at h
          · exact absurd h (by simp)
          · next stX heq =>
            refine ih h (bridgedMerge_seeded heq
              (@SettingsSeeded_upsert fetch _ st gfqn _ rfl hS ?_))
            intro _
            exact ⟨[], by simp [reachHosts]⟩

theorem gbs_count {d : String}
    {fetch : String → Except String (Option TrafficSetting)}
    {gfqn : String} {tgts : List String} {meta : ObjectMeta} {srcs : List String}
    {st st' : GenState}
    (h : generateBridgedModeTrafficSettings fetch gfqn tgts meta srcs st = .ok st')
    (hall : ∀ ns ∈ srcs, d ∈ seenOf st ns)
    (hpresent : (lookupKV st.trafficSettings gfqn).isSome ∨ fetch gfqn = .ok none)
    (hd1 : d ≠ "istio-system") (hd2 : d ≠ "xcp-multicluster") :
    ∀ k, (tHostsOf st' k).count (d ++ "/*") = (tHostsOf st k).count (d ++ "/*") := by
  induction srcs generalizing st with
  | nil =>
    simp only [generateBridgedModeTrafficSettings, Except.ok.injEq] at h
    subst h
    intro k
    rfl
  | cons ns rest ih =>
    have hdns := hall ns (List.mem_cons_self _ _)
    simp only [generateBridgedModeTrafficSettings] at h
    cases hlk : lookupKV st.trafficSettings gfqn with
    | some ts0 =>
      simp only [hlk] at h
      split at h
      · exact absurd h (by simp)
      · next stX heq =>
        have hallX : ∀ x ∈ rest, d ∈ seenOf stX x := fun x hx =>
          bridgedMerge_seen_mono heq
            (by simpa [seenOf, lookupKV_ensureSeen_getD] using
              hall x (List.mem_cons_of_mem _ hx))
        have hpX : (lookupKV stX.trafficSettings gfqn).isSome ∨ fetch gfqn = .ok none := by
          left
          exact bridgedMerge_settings_isSome heq (by simp [hlk])
        intro k
        rw [ih h hallX hpX k,
          bridgedMerge_count heq
            (by simpa [seenOf, lookupKV_ensureSeen_getD] using hdns) k]
        simp [tHostsOf]
    | none =>
      simp only [hlk] at h
      have hfnone : fetch gfqn = .ok none := by
        rcases hpresent with hp | hp
        · rw [hlk] at hp
          simp at hp
        · exact hp
      rw [hfnone] at h
      simp only [] at h
      split at h
      · exact absurd h (by simp)
      · next stX heq =>
        have hallX : ∀ x ∈ rest, d ∈ seenOf stX x := fun x hx =>
          bridgedMerge_seen_mono heq
            (by simpa [seenOf, lookupKV_ensureSeen_getD] using
              hall x (List.mem_cons_of_mem _ hx))
        have hpX : (lookupKV stX.trafficSettings gfqn).isSome ∨ fetch gfqn = .ok none := by
          left
          exact bridgedMerge_settings_isSome heq (by simp [lookupKV_upsertKV_self])
        intro k
        rw [ih h hallX hpX k,
          bridgedMerge_count heq
            (by simpa [seenOf, lookupKV_ensureSeen_getD] using hdns) k]
        by_cases hkg : k = gfqn
        · subst hkg
          simp [tHostsOf, lookupKV_upsertKV_self, hlk, reachHosts,
            count_baseHosts hd1 hd2]
        · simp [tHostsOf, lookupKV_upsertKV_ne _ _ hkg]

/-! ## processCall lemmas -/

/-- The pair (s, d) occurs in a Call: the call is governed (non-null traffic
group), s is among its source namespaces and d among its target namespaces. -/
def occursIn (s d : String) (c : Call) : Prop :=
  c.sourceTrafficGroup ≠ none ∧ s ∈ c.sourceNamespaces ∧ d ∈ c.targetNamespaces

/-- The call's source traffic group exists and has configMode "DIRECT". -/
def directGoverned (c : Call) : Prop :=
  ∃ tg, c.sourceTrafficGroup = some tg ∧ tg.configMode = "DIRECT"

/-- The call's source traffic group exists, is not "DIRECT", and has FQN g. -/
def bridgedGovernedBy (g : String) (c : Call) : Prop :=
  ∃ tg, c.sourceTrafficGroup = some tg ∧ tg.configMode ≠ "DIRECT" ∧ tg.fqn = g

theorem not_occurs_cases {s d : String} {c : Call} (h : ¬ occursIn s d c) :
    c.sourceTrafficGroup = none ∨ s ∉ c.sourceNamespaces ∨ d ∉ c.targetNamespaces := by
  by_cases h1 : c.sourceTrafficGroup = none
  · exact Or.inl h1
  · by_cases h2 : s ∈ c.sourceNamespaces
    · by_cases h3 : d ∈ c.targetNamespaces
      · exact absurd ⟨h1, h2, h3⟩ h
      · exact Or.inr (Or.inr h3)
    · exact Or.inr (Or.inl h2)

theorem pc_seen_mono {fetch : String → Except String (Option TrafficSetting)}
    {st st' : GenState} {c : Call}
    (h : processCall fetch st c = .ok st') {k x : String}
    (hx : x ∈ seenOf st k) : x ∈ seenOf st' k := by
  cases hg : c.sourceTrafficGroup with
  | none =>
    simp only [processCall, hg, Except.ok.injEq] at h
    subst h
    exact hx
  | some tg =>
    simp only [processCall, hg] at h
    by_cases hm : tg.configMode = "DIRECT"
    · rw [if_pos hm] at h
      cases ha : directModeAnnotations tg.fqn with
      | none =>
        simp only [ha] at h
        exact absurd h (by simp)
      | some ann =>
        simp only [ha] at h
        exact gds_seen_mono h hx
    · rw [if_neg hm] at h
      cases hb : bridgedModeMeta tg.fqn with
      | none =>
        simp only [hb] at h
        exact absurd h (by simp)
      | some meta =>
        simp only [hb] at h
        exact gbs_seen_mono h hx

theorem pc_seen_pair {s d : String}
    {fetch : String → Except String (Option TrafficSetting)}
    {st st' : GenState} {c : Call}
    (h : processCall fetch st c = .ok st') (hnot : ¬ occursIn s d c) :
    (d ∈ seenOf st' s ↔ d ∈ seenOf st s) := by
  cases hg : c.sourceTrafficGroup with
  | none =>
    simp only [processCall, hg, Except.ok.injEq] at h
    subst h
    rfl
  | some tg =>
    have hside : s ∉ c.sourceNamespaces ∨ d ∉ c.targetNamespaces := by
      rcases not_occurs_cases hnot with h1 | h2 | h3
      · rw [hg] at h1
        simp at h1
      · exact Or.inl h2
      · exact Or.inr h3
    simp only [processCall, hg] at h
    by_cases hm : tg.configMode = "DIRECT"
    · rw [if_pos hm] at h
      cases ha : directModeAnnotations tg.fqn with
      | none =>
        simp only [ha] at h
        exact absurd h (by simp)
      | some ann =>
        simp only [ha] at h
        exact gds_seen_pair h hside
    · rw [if_neg hm] at h
      cases hb : bridgedModeMeta tg.fqn with
      | none =>
        simp only [hb] at h
        exact absurd h (by simp)
      | some meta =>
        simp only [hb] at h
        have hp := gbs_seen_pair h hside
        exact hp

theorem pc_marks {s d : String}
    {fetch : String → Except String (Option TrafficSetting)}
    {st st' : GenState} {c : Call}
    (h : processCall fetch st c = .ok st') (hocc : occursIn s d c) :
    d ∈ seenOf st' s := by
  rcases hocc with ⟨hg0, hs, hd⟩
  cases hg : c.sourceTrafficGroup with
  | none => exact absurd hg hg0
  | some tg =>
    simp only [processCall, hg] at h
    by_cases hm : tg.configMode = "DIRECT"
    · rw [if_pos hm] at h
      cases ha : directModeAnnotations tg.fqn with
      | none =>
        simp only [ha] at h
        exact absurd h (by simp)
      | some ann =>
        simp only [ha] at h
        exact gds_marks h hs hd
    · rw [if_neg hm] at h
      cases hb : bridgedModeMeta tg.fqn with
      | none =>
        simp only [hb] at h
        exact absurd h (by simp)
      | some meta =>
        simp only [hb] at h
        exact gbs_marks h hs hd

theorem pc_InvD {s d : String}
    {fetch : String → Except String (Option TrafficSetting)}
    {st st' : GenState} {c : Call}
    (h : processCall fetch st c = .ok st') (hI : InvD s d st)
    (hgov : occursIn s d c → directGoverned c)
    (hd1 : d ≠ "istio-system") (hd2 : d ≠ "xcp-multicluster") : InvD s d st' := by
  cases hg : c.sourceTrafficGroup with
  | none =>
    simp only [processCall, hg, Except.ok.injEq] at h
    subst h
    exact hI
  | some tg =>
    simp only [processCall, hg] at h
    by_cases hm : tg.configMode = "DIRECT"
    · rw [if_pos hm] at h
      cases ha : directModeAnnotations tg.fqn with
      | none =>
        simp only [ha] at h
        exact absurd h (by simp)
      | some ann =>
        simp only [ha] at h
        exact gds_InvD h hI hd1 hd2
    · rw [if_neg hm] at h
      have hside : s ∉ c.sourceNamespaces ∨ d ∉ c.targetNamespaces := by
        by_cases h2 : s ∈ c.sourceNamespaces
        · by_cases h3 : d ∈ c.targetNamespaces
          · rcases hgov ⟨by rw [hg]; simp, h2, h3⟩ with ⟨tg', htg', hm'⟩
            rw [hg] at htg'
            cases htg'
            exact absurd hm' hm
          · exact Or.inr h3
        · exact Or.inl h2
      cases hb : bridgedModeMeta tg.fqn with
      | none =>
        simp only [hb] at h
        exact absurd h (by simp)
      | some meta =>
        simp only [hb] at h
        refine gbs_InvD h ?_ hside
        exact InvD_of_eq Iff.rfl rfl hI

theorem pc_InvB {s d g : String}
    {fetch : String → Except String (Option TrafficSetting)}
    {st st' : GenState} {c : Call}
    (h : processCall fetch st c = .ok st') (hI : InvB s d g st)
    (hfetch : ∀ k ts, fetch k = .ok (some ts) → (reachHosts ts).count (d ++ "/*") ≤ 1)
    (hgov : occursIn s d c → bridgedGovernedBy g c)
    (hd1 : d ≠ "istio-system") (hd2 : d ≠ "xcp-multicluster") : InvB s d g st' := by
  cases hg : c.sourceTrafficGroup with
  | none =>
    simp only [processCall, hg, Except.ok.injEq] at h
    subst h
    exact hI
  | some tg =>
    simp only [processCall, hg] at h
    by_cases hm : tg.configMode = "DIRECT"
    · rw [if_pos hm] at h
      have hside : s ∉ c.sourceNamespaces ∨ d ∉ c.targetNamespaces := by
        by_cases h2 : s ∈ c.sourceNamespaces
        · by_cases h3 : d ∈ c.targetNamespaces
          · rcases hgov ⟨by rw [hg]; simp, h2, h3⟩ with ⟨tg', htg', hm', _⟩
            rw [hg] at htg'
            cases htg'
            exact absurd hm hm'
          · exact Or.inr h3
        · exact Or.inl h2
      cases ha : directModeAnnotations tg.fqn with
      | none =>
        simp only [ha] at h
        exact absurd h (by simp)
      | some ann =>
        simp only [ha] at h
        exact gds_InvB h hI hside
    · rw [if_neg hm] at h
      have hside : tg.fqn = g ∨ s ∉ c.sourceNamespaces ∨ d ∉ c.targetNamespaces := by
        by_cases h2 : s ∈ c.sourceNamespaces
        · by_cases h3 : d ∈ c.targetNamespaces
          · rcases hgov ⟨by rw [hg]; simp, h2, h3⟩ with ⟨tg', htg', _, hfq⟩
            rw [hg] at htg'
            cases htg'
            exact Or.inl hfq
          · exact Or.inr (Or.inr h3)
        · exact Or.inr (Or.inl h2)
      cases hb : bridgedModeMeta tg.fqn with
      | none =>
        simp only [hb] at h
        exact absurd h (by simp)
      | some meta =>
        simp only [hb] at h
        refine gbs_InvB h ?_ (fun ts hf => hfetch _ ts hf) hside hd1 hd2
        exact InvB_of_eq Iff.rfl rfl hI

theorem pc_seeded {fetch : String → Except String (Option TrafficSetting)}
    {st st' : GenState} {c : Call}
    (h : processCall fetch st c = .ok st')
    (hS : SidecarsSeeded st ∧ SettingsSeeded fetch st) :
    SidecarsSeeded st' ∧ SettingsSeeded fetch st' := by
  cases hg : c.sourceTrafficGroup with
  | none =>
    simp only [processCall, hg, Except.ok.injEq] at h
    subst h
    exact hS
  | some tg =>
    simp only [processCall, hg] at h
    by_cases hm : tg.configMode = "DIRECT"
    · rw [if_pos hm] at h
      cases ha : directModeAnnotations tg.fqn with
      | none =>
        simp only [ha] at h
        exact absurd h (by simp)
      | some ann =>
        simp only [ha] at h
        refine ⟨gds_seeded h hS.1, ?_⟩
        intro k ts hk hf
        rw [(gds_frame h).1] at hk
        exact hS.2 k ts hk hf
    · rw [if_neg hm] at h
      cases hb : bridgedModeMeta tg.fqn with
      | none =>
        simp only [hb] at h
        exact absurd h (by simp)
      | some meta =>
        simp only [hb] at h
        constructor
        · intro k sc hk
          rw [(gbs_frame h).1] at hk
          exact hS.1 k sc hk
        · refine gbs_seeded h ?_
          intro k ts hk hf
          exact hS.2 k ts hk hf

/-! ## processCalls lemmas -/

theorem pcs_step {fetch : String → Except String (Option TrafficSetting)}
    {st st' : GenState} {c : Call} {rest : List Call}
    (h : processCalls fetch st (c :: rest) = .ok st') :
    ∃ st₁, processCall fetch st c = .ok st₁ ∧ processCalls fetch st₁ rest = .ok st' := by
  simp only [processCalls] at h
  split at h
  · exact absurd h (by simp)
  · next st₁ heq => exact ⟨st₁, heq, h⟩

theorem pcs_seen_mono {fetch : String → Except String (Option TrafficSetting)}
    {st st' : GenState} {calls : List Call}
    (h : processCalls fetch st calls = .ok st') {k x : String}
    (hx : x ∈ seenOf st k) : x ∈ seenOf st' k := by
  induction calls generalizing st with
  | nil =>
    simp only [processCalls, Except.ok.injEq] at h
    subst h
    exact hx
  | cons c rest ih =>
    rcases pcs_step h with ⟨st₁, hc, hrest⟩
    exact ih hrest (pc_seen_mono hc hx)

theorem pcs_marks {s d : String}
    {fetch : String → Except String (Option TrafficSetting)}
    {st st' : GenState} {calls : List Call}
    (h : processCalls fetch st calls = .ok st') {c : Call}
    (hc : c ∈ calls) (hocc : occursIn s d c) : d ∈ seenOf st' s := by
  induction calls generalizing st with
  | nil => exact absurd hc (List.not_mem_nil c)
  | cons c0 rest ih =>
    rcases pcs_step h with ⟨st₁, hc0, hrest⟩
    rcases List.mem_cons.mp hc with he | he
    · subst he
      exact pcs_seen_mono hrest (pc_marks hc0 hocc)
    · exact ih hrest he

theorem pcs_InvD {s d : String}
    {fetch : String → Except String (Option TrafficSetting)}
    {st st' : GenState} {calls : List Call}
    (h : processCalls fetch st calls = .ok st') (hI : InvD s d st)
    (hgov : ∀ c ∈ calls, occursIn s d c → directGoverned c)
    (hd1 : d ≠ "istio-system") (hd2 : d ≠ "xcp-multicluster") : InvD s d st' := by
  induction calls generalizing st with
  | nil =>
    simp only [processCalls, Except.ok.injEq] at h
    subst h
    exact hI
  | cons c0 rest ih =>
    rcases pcs_step h with ⟨st₁, hc0, hrest⟩
    exact ih hrest
      (pc_InvD hc0 hI (hgov c0 (List.mem_cons_self _ _)) hd1 hd2)
      (fun c hcm => hgov c (List.mem_cons_of_mem _ hcm))

theorem pcs_InvB {s d g : String}
    {fetch : String → Except String (Option TrafficSetting)}
    {st st' : GenState} {calls : List Call}
    (h : processCalls fetch st calls = .ok st') (hI : InvB s d g st)
    (hfetch : ∀ k ts, fetch k = .ok (some ts) → (reachHosts ts).count (d ++ "/*") ≤ 1)
    (hgov : ∀ c ∈ calls, occursIn s d c → bridgedGovernedBy g c)
    (hd1 : d ≠ "istio-system") (hd2 : d ≠ "xcp-multicluster") : InvB s d g st' := by
  induction calls generalizing st with
  | nil =>
    simp only [processCalls, Except.ok.injEq] at h
    subst h
    exact hI
  | cons c0 rest ih =>
    rcases pcs_step h with ⟨st₁, hc0, hrest⟩
    exact ih hrest
      (pc_InvB hc0 hI hfetch (hgov c0 (List.mem_cons_self _ _)) hd1 hd2)
      (fun c hcm => hgov c (List.mem_cons_of_mem _ hcm))

theorem pcs_seeded {fetch : String → Except String (Option TrafficSetting)}
    {st st' : GenState} {calls : List Call}
    (h : processCalls fetch st calls = .ok st')
    (hS : SidecarsSeeded st ∧ SettingsSeeded fetch st) :
    SidecarsSeeded st' ∧ SettingsSeeded fetch st' := by
  induction calls generalizing st with
  | nil =>
    simp only [processCalls, Except.ok.injEq] at h
    subst h
    exact hS
  | cons c0 rest ih =>
    rcases pcs_step h with ⟨st₁, hc0, hrest⟩
    exact ih hrest (pc_seeded hc0 hS)

/-- A lookup hit is a member of the association list. -/
theorem lookupKV_mem {α : Type} {m : List (String × α)} {k : String} {v : α}
    (h : lookupKV m k = some v) : (k, v) ∈ m := by
  induction m with
  | nil => simp [lookupKV] at h
  | cons p rest ih =>
    rcases p with ⟨pk, pv⟩
    by_cases hp : pk = k
    · subst hp
      simp [lookupKV] at h
      subst h
      exact List.mem_cons_self _ _
    · simp only [lookupKV, if_neg hp] at h
      exact List.mem_cons_of_mem _ (ih h)

/-! ## buildGraph lemmas -/

/-- Removing a topology edge whose endpoints do not both resolve does not
change the result of the edge loop. -/
theorem buildLoop_skip {lookupTG : Service → Except String (Option TrafficGroup)}
    {index : String → Option Service} {t : TopCall} (pre post : List TopCall)
    (acc : List Call) (ht : index t.source = none ∨ index t.target = none) :
    buildLoop lookupTG index (pre ++ t :: post) acc =
      buildLoop lookupTG index (pre ++ post) acc := by
  induction pre generalizing acc with
  | nil =>
    simp only [List.nil_append]
    rcases ht with h | h
    · simp [buildLoop, h]
    · cases hs : index t.source with
      | none => simp [buildLoop, hs]
      | some src => simp [buildLoop, hs, h]
  | cons e rest ih =>
    simp only [List.cons_append]
    cases hs : index e.source with
    | none =>
      simp only [buildLoop, hs]
      exact ih acc
    | some src =>
      cases ht2 : index e.target with
      | none =>
        simp only [buildLoop, hs, ht2]
        exact ih acc
      | some tgt =>
        cases hp1 : parseNamespace src with
        | none => simp [buildLoop, hs, ht2, hp1]
        | some ns1 =>
          cases hp2 : parseNamespace tgt with
          | none => simp [buildLoop, hs, ht2, hp1, hp2]
          | some ns2 =>
            cases hl : lookupTG src with
            | error e2 => simp [buildLoop, hs, ht2, hp1, hp2, hl]
            | ok tg =>
              simp only [buildLoop, hs, ht2, hp1, hp2, hl]
              exact ih _

/-- C8: a topology call edge whose source or target node identifier does not
resolve to a Service through the index contributes no Call, does not abort the
build, and the remaining edges are still processed: building with the edge
present gives exactly the same result as building with the edge removed. -/
theorem c8_unresolved_edge_skipped
    (lookupTG : Service → Except String (Option TrafficGroup))
    (nodes : List TopNode) (pre post : List TopCall) (t : TopCall)
    (services : List Service)
    (ht : servicesByID ⟨nodes, pre ++ t :: post⟩ services t.source = none ∨
      servicesByID ⟨nodes, pre ++ t :: post⟩ services t.target = none) :
    buildGraph lookupTG ⟨nodes, pre ++ t :: post⟩ services =
      buildGraph lookupTG ⟨nodes, pre ++ post⟩ services := by
  unfold buildGraph
  exact buildLoop_skip pre post [] ht

/-- Witness for C8: in `exTopBad` the edge target "nX" resolves to no service,
and the build result equals the build on the same topology without that edge
(here: the empty graph). -/
theorem c8_witness :
    (servicesByID ⟨[⟨"n1", "keyA"⟩], [] ++ TopCall.mk "e1" "n1" "nX" :: []⟩
        [exSvcA] (TopCall.mk "e1" "n1" "nX").target = none ∨
      servicesByID ⟨[⟨"n1", "keyA"⟩], [] ++ TopCall.mk "e1" "n1" "nX" :: []⟩
        [exSvcA] (TopCall.mk "e1" "n1" "nX").source = none) ∧
    buildGraph exLookupErr ⟨[⟨"n1", "keyA"⟩], [] ++ TopCall.mk "e1" "n1" "nX" :: []⟩
        [exSvcA] =
      buildGraph exLookupErr ⟨[⟨"n1", "keyA"⟩], [] ++ []⟩ [exSvcA] := by
  constructor
  · left
    decide
  · exact c8_unresolved_edge_skipped exLookupErr _ [] [] _ [exSvcA] (Or.inr (by decide))

/-- C1 (code bug evidence): when the traffic-group lookup errors on the source
of the second edge, `buildGraph` aborts and discards the Call already built
from the first edge — but the result is the bare nil graph
(`BuildResult.nilGraph` models the Go `return nil`): the return type
carries no error value, so the failure reaches the caller only as a nil
pointer, not as an error result (the error itself is debug-logged with a
stray `%w` verb and lost). -/
theorem c1_lookup_error_returns_bare_nil :
    buildGraph exLookupErr exTop [exSvcA, exSvcB] = BuildResult.nilGraph ∧
    (∀ g : Graph, buildGraph exLookupErr exTop [exSvcA, exSvcB] ≠ .graph g) ∧
    buildGraph (fun _ => .error "other failure") exTop [exSvcA, exSvcB] =
      buildGraph exLookupErr exTop [exSvcA, exSvcB] := by
  refine ⟨by decide, ?_, by decide⟩
  intro g hg
  rw [show buildGraph exLookupErr exTop [exSvcA, exSvcB] = BuildResult.nilGraph
    from by decide] at hg
  exact BuildResult.noConfusion hg

/-! ## Claims C2 and C7: FQN decomposition -/

/-- Counterexample for C2: decomposition is not total.  An FQN whose
slash-split has odd length and ends in a recognized key makes the Go loop
read one element past the end of the slice (an index-out-of-range panic,
modelled as `none`): `"organizations"` for the metadata and annotation walks,
a bare `"namespaces"` deployment FQN for namespace extraction. -/
theorem c2_counterexample :
    bridgedModeMeta "organizations" = none ∧
    directModeAnnotations "organizations" = none ∧
    parseNamespace exSvcBad = none := by decide

/-- C2 (amended): the FQN walks are total unless the slash-split has odd
length and its final segment is a key recognized by that walk (the four
resource keys for metadata/annotations, "namespaces" for namespace
extraction); under that proviso malformed input never fails, unmatched
trailing segments are skipped and unrecognized keys are ignored. -/
theorem c2_decomposition_total_unless_trailing_key :
    (∀ fqn : String,
      ((splitFQN fqn).length % 2 = 0 ∨
        ∀ k, (splitFQN fqn).getLast? = some k → k ∉ metaKeys) →
      (bridgedModeMeta fqn).isSome ∧ (directModeAnnotations fqn).isSome) ∧
    (∀ svc : Service,
      (∀ dep ∈ svc.serviceDeployments,
        (splitFQN dep.fqn).length % 2 = 0 ∨
          ∀ k, (splitFQN dep.fqn).getLast? = some k → k ≠ "namespaces") →
      (parseNamespace svc).isSome) :=
  ⟨fun _ h => ⟨metaLoop_isSome _ _ h, annLoop_isSome _ _ h⟩,
   fun svc h => parseNamespace_isSome svc h⟩

/-- Witness for C2: concrete total runs — an even split for the group-FQN
walks and an odd split ending in an unrecognized segment for the
namespace walk. -/
theorem c2_witness :
    (bridgedModeMeta "organizations/o").isSome ∧
    (directModeAnnotations "organizations/o").isSome ∧
    (parseNamespace exSvcA).isSome := by
  refine ⟨(c2_decomposition_total_unless_trailing_key.1 "organizations/o"
      (Or.inl (by decide))).1,
    (c2_decomposition_total_unless_trailing_key.1 "organizations/o"
      (Or.inl (by decide))).2,
    c2_decomposition_total_unless_trailing_key.2 exSvcA ?_⟩
  intro dep hdep
  right
  intro k hk
  have hd : dep = ServiceDeployment.mk "d/namespaces/ns-a" := by
    simpa [exSvcA] using hdep
  subst hd
  rw [show (splitFQN "d/namespaces/ns-a").getLast? = some "ns-a" from by decide] at hk
  cases hk
  decide

/-- Splitting the canonical group FQN when none of the four values contains a
slash. -/
theorem splitFQN_mkGroupFQN (O T W G : String)
    (hO : '/' ∉ O.toList) (hT : '/' ∉ T.toList) (hW : '/' ∉ W.toList)
    (hG : '/' ∉ G.toList) :
    splitFQN (mkGroupFQN O T W G) =
      ["organizations", O, "tenants", T, "workspaces", W, "trafficgroups", G] := by
  have hl : (mkGroupFQN O T W G).toList =
      "organizations".toList ++ '/' :: (O.toList ++ '/' :: ("tenants".toList ++ '/' ::
        (T.toList ++ '/' :: ("workspaces".toList ++ '/' :: (W.toList ++ '/' ::
          ("trafficgroups".toList ++ '/' :: G.toList)))))) := by
    simp only [mkGroupFQN, string_toList_append]
    rw [show ("organizations/").toList = "organizations".toList ++ ['/'] from by decide,
      show ("/tenants/").toList = '/' :: ("tenants".toList ++ ['/']) from by decide,
      show ("/workspaces/").toList = '/' :: ("workspaces".toList ++ ['/']) from by decide,
      show ("/trafficgroups/").toList = '/' :: ("trafficgroups".toList ++ ['/']) from by decide]
    simp [List.append_assoc]
  unfold splitFQN
  rw [hl, splitSlash_append _ _ (by decide), splitSlash_append _ _ hO,
    splitSlash_append _ _ (by decide), splitSlash_append _ _ hT,
    splitSlash_append _ _ (by decide), splitSlash_append _ _ hW,
    splitSlash_append _ _ (by decide), splitSlash_no_slash _ hG]
  simp [string_mk_toList]

/-- C7 (amended): for values O, T, W, G that contain no slash, decomposing
`"organizations/O/tenants/T/workspaces/W/trafficgroups/G"` yields the
structured metadata {organization O, tenant T, workspace W, group G}, and the
annotation decomposition yields exactly the four prefixed keys bound to the
same values. -/
theorem c7_fqn_round_trip (O T W G : String)
    (hO : '/' ∉ O.toList) (hT : '/' ∉ T.toList) (hW : '/' ∉ W.toList)
    (hG : '/' ∉ G.toList) :
    bridgedModeMeta (mkGroupFQN O T W G) =
      some { organization := O, tenant := T, workspace := W, group := G } ∧
    ∃ a, directModeAnnotations (mkGroupFQN O T W G) = some a ∧ a.length = 4 ∧
      lookupKV a "tsb.tetrate.io/organization" = some O ∧
      lookupKV a "tsb.tetrate.io/tenant" = some T ∧
      lookupKV a "tsb.tetrate.io/workspace" = some W ∧
      lookupKV a "tsb.tetrate.io/trafficGroup" = some G := by
  have hsplit := splitFQN_mkGroupFQN O T W G hO hT hW hG
  constructor
  · unfold bridgedModeMeta
    rw [hsplit]
    simp [metaLoop, applyMetaKey, metaKeys]
  · refine ⟨[("tsb.tetrate.io/organization", O), ("tsb.tetrate.io/tenant", T),
      ("tsb.tetrate.io/workspace", W), ("tsb.tetrate.io/trafficGroup", G)], ?_,
      rfl, ?_, ?_, ?_, ?_⟩
    · unfold directModeAnnotations
      rw [hsplit]
      simp [annLoop, applyAnnKey, upsertKV]
    · simp [lookupKV]
    · simp [lookupKV]
    · simp [lookupKV]
    · simp [lookupKV]

/-- Witness for C7: the round trip at O = "o", T = "t", W = "w", G = "g". -/
theorem c7_witness :
    bridgedModeMeta (mkGroupFQN "o" "t" "w" "g") =
      some { organization := "o", tenant := "t", workspace := "w", group := "g" } ∧
    ∃ a, directModeAnnotations (mkGroupFQN "o" "t" "w" "g") = some a ∧ a.length = 4 ∧
      lookupKV a "tsb.tetrate.io/organization" = some "o" ∧
      lookupKV a "tsb.tetrate.io/tenant" = some "t" ∧
      lookupKV a "tsb.tetrate.io/workspace" = some "w" ∧
      lookupKV a "tsb.tetrate.io/trafficGroup" = some "g" :=
  c7_fqn_round_trip "o" "t" "w" "g" (by decide) (by decide) (by decide) (by decide)

/-- Counterexample for C7: a value containing a slash breaks the round trip —
with O = "a/b" the decomposition assigns organization "a", not "a/b". -/
theorem c7_counterexample :
    (bridgedModeMeta (mkGroupFQN "a/b" "t" "w" "g")).map ObjectMeta.organization ≠
      some "a/b" ∧
    (directModeAnnotations (mkGroupFQN "a/b" "t" "w" "g")).map
      (fun a => lookupKV a "tsb.tetrate.io/organization") ≠ some (some "a/b") := by
  decide

/-! ## Claims C3, C4, C5, C6, C9, C10: the policy generator -/

/-- C5: mode dispatch — a Call whose source traffic group has configMode
"DIRECT" contributes no TrafficSetting (the traffic-settings map and the
fetch log are untouched), and a Call with any other configMode contributes
no Sidecar (the sidecars map is untouched). -/
theorem c5_mode_dispatch (fetch : String → Except String (Option TrafficSetting))
    (st : GenState) (c : Call) (tg : TrafficGroup) (st' : GenState)
    (hg : c.sourceTrafficGroup = some tg)
    (h : processCall fetch st c = .ok st') :
    (tg.configMode = "DIRECT" →
      st'.trafficSettings = st.trafficSettings ∧ st'.fetched = st.fetched) ∧
    (tg.configMode ≠ "DIRECT" → st'.sidecars = st.sidecars) := by
  simp only [processCall, hg] at h
  by_cases hm : tg.configMode = "DIRECT"
  · rw [if_pos hm] at h
    cases ha : directModeAnnotations tg.fqn with
    | none =>
      simp only [ha] at h
      exact absurd h (by simp)
    | some ann =>
      simp only [ha] at h
      exact ⟨fun _ => ⟨(gds_frame h).1, (gds_frame h).2.2⟩, fun hm' => absurd hm hm'⟩
  · rw [if_neg hm] at h
    cases hb : bridgedModeMeta tg.fqn with
    | none =>
      simp only [hb] at h
      exact absurd h (by simp)
    | some meta =>
      simp only [hb] at h
      exact ⟨fun hm' => absurd hm' hm, fun _ => (gbs_frame h).1⟩

/-- Witness for C5: a DIRECT call leaves the traffic-settings map and the
fetch log empty. -/
theorem c5_witness : ∃ st', processCall exFetchNone exSeenState exCallDir = .ok st' ∧
    st'.trafficSettings = exSeenState.trafficSettings ∧
    st'.fetched = exSeenState.fetched := by
  cases hpc : processCall exFetchNone exSeenState exCallDir with
  | error e =>
    have hde := (by decide :
      (processCall exFetchNone exSeenState exCallDir).toOption.isSome = true)
    rw [hpc] at hde
    simp [Except.toOption] at hde
  | ok st' =>
    exact ⟨st', rfl, (c5_mode_dispatch exFetchNone exSeenState exCallDir
      exGroupDirect st' rfl hpc).1 rfl⟩

/-- C9: in the emitted list, every Sidecar-kind object precedes every
TrafficSetting-kind object — the result splits as a block of Sidecar objects
followed by a block of TrafficSetting objects. -/
theorem c9_sidecars_before_trafficsettings
    (fetch : String → Except String (Option TrafficSetting)) (graph : Graph)
    (results : List PolicyObject)
    (h : generateSettings fetch graph = .ok results) :
    ∃ A B, results = A ++ B ∧ (∀ o ∈ A, o.kind = istioSidecarKind) ∧
      (∀ o ∈ B, o.kind = trafficSettingKind) := by
  unfold generateSettings at h
  split at h
  · exact absurd h (by simp)
  · next st hst =>
    have hres : results = emitObjects st := by
      simpa using h.symm
    subst hres
    refine ⟨_, _, rfl, ?_, ?_⟩
    · intro o ho
      rcases List.mem_map.mp ho with ⟨p, _, rfl⟩
      rfl
    · intro o ho
      rcases List.mem_map.mp ho with ⟨p, _, rfl⟩
      rfl

/-- Witness for C9 on a mixed direct/bridged run. -/
theorem c9_witness : ∃ results A B,
    generateSettings exFetchNone ⟨[exCallDir, exCallBridged]⟩ = .ok results ∧
    results = A ++ B ∧ (∀ o ∈ A, o.kind = istioSidecarKind) ∧
    (∀ o ∈ B, o.kind = trafficSettingKind) := by
  cases hgen : generateSettings exFetchNone ⟨[exCallDir, exCallBridged]⟩ with
  | error e =>
    have hde := (by decide :
      (generateSettings exFetchNone ⟨[exCallDir, exCallBridged]⟩).toOption.isSome = true)
    rw [hgen] at hde
    simp [Except.toOption] at hde
  | ok results =>
    rcases c9_sidecars_before_trafficsettings exFetchNone _ results hgen with
      ⟨A, B, h1, h2, h3⟩
    exact ⟨results, A, B, rfl, h1, h2, h3⟩

/-- C10: a Call with a non-null source traffic group but an empty source
namespace set contributes nothing: the sidecars map, the traffic-settings
map, the seen map and the fetch log are all unchanged (in particular no
traffic-setting fetch happens for its group FQN). -/
theorem c10_empty_source_contributes_nothing
    (fetch : String → Except String (Option TrafficSetting))
    (st : GenState) (c : Call) (tg : TrafficGroup) (st' : GenState)
    (hg : c.sourceTrafficGroup = some tg) (hsrc : c.sourceNamespaces = [])
    (h : processCall fetch st c = .ok st') :
    st'.sidecars = st.sidecars ∧ st'.trafficSettings = st.trafficSettings ∧
      st'.seenNs = st.seenNs ∧ st'.fetched = st.fetched := by
  simp only [processCall, hg, hsrc] at h
  by_cases hm : tg.configMode = "DIRECT"
  · rw [if_pos hm] at h
    cases ha : directModeAnnotations tg.fqn with
    | none =>
      simp only [ha] at h
      exact absurd h (by simp)
    | some ann =>
      simp only [ha] at h
      simp only [generateDirectModeSidecars, Except.ok.injEq] at h
      subst h
      exact ⟨rfl, rfl, rfl, rfl⟩
  · rw [if_neg hm] at h
    cases hb : bridgedModeMeta tg.fqn with
    | none =>
      simp only [hb] at h
      exact absurd h (by simp)
    | some meta =>
      simp only [hb] at h
      simp only [generateBridgedModeTrafficSettings, Except.ok.injEq] at h
      subst h
      exact ⟨rfl, rfl, rfl, rfl⟩

/-- Witness for C10: a bridged-governed call with empty source namespaces. -/
theorem c10_witness : ∃ st',
    processCall exFetchNone exSeenState exCallEmptySrc = .ok st' ∧
    st'.sidecars = exSeenState.sidecars ∧
    st'.trafficSettings = exSeenState.trafficSettings ∧
    st'.seenNs = exSeenState.seenNs ∧ st'.fetched = exSeenState.fetched := by
  cases hpc : processCall exFetchNone exSeenState exCallEmptySrc with
  | error e =>
    have hde := (by decide :
      (processCall exFetchNone exSeenState exCallEmptySrc).toOption.isSome = true)
    rw [hpc] at hde
    simp [Except.toOption] at hde
  | ok st' =>
    rcases c10_empty_source_contributes_nothing exFetchNone exSeenState
      exCallEmptySrc exGroupBridged st' rfl rfl hpc with ⟨h1, h2, h3, h4⟩
    exact ⟨st', rfl, h1, h2, h3, h4⟩

/-- C4: the seen map is shared across modes — once the pair
(sourceNamespace, destNamespace) is recorded, a later Call over the same pair
adds no host for it under either config mode: every per-sidecar and
per-setting count of the destination host string is unchanged.  (For bridged
mode the group setting must either be cached already or the remote fetch
must report no setting, so that no unrelated remote host list enters.) -/
theorem c4_seen_shared_across_modes
    (fetch : String → Except String (Option TrafficSetting))
    (st : GenState) (c : Call) (tg : TrafficGroup) (st' : GenState) (s d : String)
    (hg : c.sourceTrafficGroup = some tg) (hsrc : c.sourceNamespaces = [s])
    (hdseen : d ∈ seenOf st s)
    (hd1 : d ≠ "istio-system") (hd2 : d ≠ "xcp-multicluster")
    (hbr : tg.configMode ≠ "DIRECT" →
      (lookupKV st.trafficSettings tg.fqn).isSome ∨ fetch tg.fqn = .ok none)
    (h : processCall fetch st c = .ok st') :
    (∀ k, (sHostsOf st' k).count (d ++ "/*") = (sHostsOf st k).count (d ++ "/*")) ∧
    (∀ k, (tHostsOf st' k).count (d ++ "/*") = (tHostsOf st k).count (d ++ "/*")) := by
  simp only [processCall, hg, hsrc] at h
  have hall : ∀ ns ∈ [s], d ∈ seenOf st ns := by
    intro ns hns
    rw [List.mem_singleton.mp hns]
    exact hdseen
  by_cases hm : tg.configMode = "DIRECT"
  · rw [if_pos hm] at h
    cases ha : directModeAnnotations tg.fqn with
    | none =>
      simp only [ha] at h
      exact absurd h (by simp)
    | some ann =>
      simp only [ha] at h
      refine ⟨gds_count h hall hd1 hd2, ?_⟩
      intro k
      rw [tHostsOf_congr (gds_frame h).1 k]
  · rw [if_neg hm] at h
    cases hb : bridgedModeMeta tg.fqn with
    | none =>
      simp only [hb] at h
      exact absurd h (by simp)
    | some meta =>
      simp only [hb] at h
      have hallp : ∀ ns ∈ [s],
          d ∈ seenOf { st with trafficMeta := upsertKV st.trafficMeta tg.fqn meta } ns :=
        hall
      have hbrp : (lookupKV ({ st with
          trafficMeta := upsertKV st.trafficMeta tg.fqn meta } : GenState).trafficSettings
          tg.fqn).isSome ∨ fetch tg.fqn = .ok none := hbr hm
      refine ⟨?_, ?_⟩
      · intro k
        rw [sHostsOf_congr (gbs_frame h).1 k]
        rfl
      · have hcnt := gbs_count h hallp hbrp hd1 hd2
        exact hcnt

/-- Witness for C4: with (ns-a, ns-b) already seen, the bridged call over the
same pair changes no host count for "ns-b/*". -/
theorem c4_witness : ∃ st',
    processCall exFetchNone exSeenState exCallBridged = .ok st' ∧
    (∀ k, (sHostsOf st' k).count ("ns-b" ++ "/*") =
      (sHostsOf exSeenState k).count ("ns-b" ++ "/*")) ∧
    (∀ k, (tHostsOf st' k).count ("ns-b" ++ "/*") =
      (tHostsOf exSeenState k).count ("ns-b" ++ "/*")) := by
  cases hpc : processCall exFetchNone exSeenState exCallBridged with
  | error e =>
    have hde := (by decide :
      (processCall exFetchNone exSeenState exCallBridged).toOption.isSome = true)
    rw [hpc] at hde
    simp [Except.toOption] at hde
  | ok st' =>
    rcases c4_seen_shared_across_modes exFetchNone exSeenState exCallBridged
      exGroupBridged st' "ns-a" "ns-b" rfl rfl (by decide) (by decide) (by decide)
      (fun _ => Or.inr rfl) hpc with ⟨h1, h2⟩
    exact ⟨st', rfl, h1, h2⟩

/-- C6: every sidecar accumulated by a generation pass from the empty state,
and every traffic setting whose group FQN the remote collaborator answers
with "no setting" (hence necessarily synthesized locally), carries the two
base hosts ["istio-system/*", "xcp-multicluster/*"] as a prefix of its host
list: the seeding happens at creation and merging only appends. -/
theorem c6_base_host_seeding
    (fetch : String → Except String (Option TrafficSetting)) (graph : Graph)
    (st' : GenState) (h : processCalls fetch {} graph.calls = .ok st') :
    (∀ k sc, lookupKV st'.sidecars k = some sc →
      ∃ ext, sc.egressHosts = baseHosts ++ ext) ∧
    (∀ k ts, lookupKV st'.trafficSettings k = some ts → fetch k = .ok none →
      ∃ ext, reachHosts ts = baseHosts ++ ext) := by
  have h0 : SidecarsSeeded ({} : GenState) ∧ SettingsSeeded fetch ({} : GenState) := by
    constructor
    · intro k sc hk
      simp [lookupKV] at hk
    · intro k ts hk _
      simp [lookupKV] at hk
  exact pcs_seeded h h0

/-- Witness for C6 on a mixed direct/bridged run. -/
theorem c6_witness : ∃ st',
    processCalls exFetchNone {} [exCallDir, exCallBridged] = .ok st' ∧
    (∀ k sc, lookupKV st'.sidecars k = some sc →
      ∃ ext, sc.egressHosts = baseHosts ++ ext) ∧
    (∀ k ts, lookupKV st'.trafficSettings k = some ts → exFetchNone k = .ok none →
      ∃ ext, reachHosts ts = baseHosts ++ ext) := by
  cases hpc : processCalls exFetchNone {} [exCallDir, exCallBridged] with
  | error e =>
    have hde := (by decide :
      (processCalls exFetchNone {} [exCallDir, exCallBridged]).toOption.isSome = true)
    rw [hpc] at hde
    simp [Except.toOption] at hde
  | ok st' =>
    rcases c6_base_host_seeding exFetchNone ⟨[exCallDir, exCallBridged]⟩ st' hpc with
      ⟨h1, h2⟩
    exact ⟨st', rfl, h1, h2⟩

/-- Counterexample for C3: the pair (ns-a, istio-system) occurs in two Calls,
yet the resulting egress host list contains "istio-system/*" twice (the base
seed plus the merged copy) — direct mode checks only the seen map, not the
host list, before appending. -/
theorem c3_counterexample :
    (processCalls exFetchNone {} [exCallDupIstio, exCallDupIstio]).toOption.map
      (fun st => (sHostsOf st "ns-a").count ("istio-system" ++ "/*")) = some 2 := by
  decide

/-- C3 (amended): for a pair (s, d) occurring in at least one governed Call,
the host list holds d + "/*" exactly once, provided d is not one of the two
base namespaces, every remote setting the collaborator returns holds it at
most once, and every Call containing the pair is governed in the same mode
(direct part) respectively by the same bridged group (bridged part). -/
theorem c3_dedup_exactly_once
    (fetch : String → Except String (Option TrafficSetting)) (graph : Graph)
    (s d : String) (st' : GenState)
    (hd1 : d ≠ "istio-system") (hd2 : d ≠ "xcp-multicluster")
    (hfetch : ∀ k ts, fetch k = .ok (some ts) →
      (reachHosts ts).count (d ++ "/*") ≤ 1)
    (hrun : processCalls fetch {} graph.calls = .ok st') :
    ((∀ c ∈ graph.calls, occursIn s d c → directGoverned c) →
      (∃ c ∈ graph.calls, occursIn s d c) →
      ∃ sc, lookupKV st'.sidecars s = some sc ∧
        sc.egressHosts.count (d ++ "/*") = 1) ∧
    (∀ g, (∀ c ∈ graph.calls, occursIn s d c → bridgedGovernedBy g c) →
      (∃ c ∈ graph.calls, occursIn s d c) →
      ∃ ts, lookupKV st'.trafficSettings g = some ts ∧
        (reachHosts ts).count (d ++ "/*") = 1) := by
  constructor
  · rintro hgov ⟨c, hc, hocc⟩
    have h0 : InvD s d ({} : GenState) := by
      constructor
      · intro hin
        simp [seenOf, lookupKV] at hin
      · intro _
        simp [sHostsOf, lookupKV]
    have hI := pcs_InvD hrun h0 hgov hd1 hd2
    have hmem := pcs_marks hrun hc hocc
    obtain ⟨hsome, hcnt⟩ := hI.1 hmem
    obtain ⟨sc, hsc⟩ := Option.isSome_iff_exists.mp hsome
    refine ⟨sc, hsc, ?_⟩
    have hH : sHostsOf st' s = sc.egressHosts := by
      simp [sHostsOf, hsc]
    rwa [hH] at hcnt
  · rintro g hgov ⟨c, hc, hocc⟩
    have h0 : InvB s d g ({} : GenState) := by
      constructor
      · intro k
        simp [tHostsOf, lookupKV]
      · intro hin
        simp [seenOf, lookupKV] at hin
    have hI := pcs_InvB hrun h0 hfetch hgov hd1 hd2
    have hmem := pcs_marks hrun hc hocc
    obtain ⟨hsome, hcnt⟩ := hI.2 hmem
    obtain ⟨ts, hts⟩ := Option.isSome_iff_exists.mp hsome
    refine ⟨ts, hts, ?_⟩
    have hH : tHostsOf st' g = reachHosts ts := by
      simp [tHostsOf, hts]
    rwa [hH] at hcnt

/-- Witness for C3: the direct pair (ns-a, ns-b) occurring in two identical
Calls yields exactly one "ns-b/*" in the sidecar egress list. -/
theorem c3_witness : ∃ st' sc,
    processCalls exFetchNone {} [exCallDir, exCallDir] = .ok st' ∧
    lookupKV st'.sidecars "ns-a" = some sc ∧
    sc.egressHosts.count ("ns-b" ++ "/*") = 1 := by
  cases hrun : processCalls exFetchNone {} [exCallDir, exCallDir] with
  | error e =>
    have hde := (by decide :
      (processCalls exFetchNone {} [exCallDir, exCallDir]).toOption.isSome = true)
    rw [hrun] at hde
    simp [Except.toOption] at hde
  | ok st' =>
    have hgov : ∀ c ∈ [exCallDir, exCallDir], occursIn "ns-a" "ns-b" c →
        directGoverned c := by
      intro c hc _
      rcases List.mem_cons.mp hc with rfl | hc
      · exact ⟨exGroupDirect, rfl, rfl⟩
      · rcases List.mem_cons.mp hc with rfl | hc
        · exact ⟨exGroupDirect, rfl, rfl⟩
        · exact absurd hc (List.not_mem_nil c)
    have hocc : occursIn "ns-a" "ns-b" exCallDir :=
      ⟨by decide, by decide, by decide⟩
    have hfetch : ∀ k ts, exFetchNone k = .ok (some ts) →
        (reachHosts ts).count ("ns-b" ++ "/*") ≤ 1 := by
      intro k ts hk
      simp [exFetchNone] at hk
    rcases (c3_dedup_exactly_once exFetchNone ⟨[exCallDir, exCallDir]⟩ "ns-a" "ns-b"
      st' (by decide) (by decide) hfetch hrun).1 hgov
      ⟨exCallDir, List.mem_cons_self _ _, hocc⟩ with ⟨sc, h1, h2⟩
    exact ⟨st', sc, rfl, h1, h2⟩

end SidecarTool
